import Mathlib

/-!
Verification of the pepterm terminal wireframe renderer (src/screen.rs,
src/three.rs, src/model.rs).

Embedding conventions:
* Rust `f32` arithmetic is modelled by exact rational arithmetic (`ℚ`).
* The transcendental values the code computes (`sin`/`cos` of the camera
  angles, `tan(viewport_fov / 2)`) are carried as explicit rational
  parameters (`Trig`, `tanHalfFov`): the source only ever uses the angles
  through these values.
* `f32::round` (round half away from zero) is `rround`; the saturating
  `as u8` cast of a nonnegative float is `rustCastU8`.
* The framebuffer `content` is a total function `ℤ → ℤ → ColorCell`
  (indexed row `y` first, then column `x`, like `content[y][x]`);
  `write_color` is the bounds-checked point update of the source.
* The unbounded Rust `loop` in `line_color` / `line_color_clipped` is
  embedded with fuel returning `Option Screen`; termination with fuel
  `max |Δx| |Δy| + 1` is proved (claim C10).
-/

namespace Pepterm

/-- RGB color (`Rgb` in screen.rs); the `u8` channels are modelled as `ℕ`. -/
structure Rgb where
  r : ℕ
  g : ℕ
  b : ℕ
  deriving DecidableEq, Repr

/-- Rust `as u8` applied to a float value `q`: truncate toward zero and
saturate to `[0, 255]`.  For `q < 0` the result is `0`, which agrees with
`min 255 (Int.toNat ⌊q⌋)` for every rational `q`. -/
def rustCastU8 (q : ℚ) : ℕ := min 255 (Int.toNat ⌊q⌋)

/-- Rust `f32::round`: round half away from zero. -/
def rround (q : ℚ) : ℤ := if 0 ≤ q then ⌊q + 1/2⌋ else ⌈q - 1/2⌉

/-- The color-interpolation formula `((1.0 - t) * c1.ch + t * c2.ch) as u8`
applied channelwise; this exact expression appears in `Screen::line_color`,
`Screen::line_color_clipped`, `Camera::edge_color` and
`Camera::plot_model_in_viewport`. -/
def blendRgb (c1 c2 : Rgb) (t : ℚ) : Rgb :=
  ⟨rustCastU8 ((1 - t) * (c1.r : ℚ) + t * (c2.r : ℚ)),
   rustCastU8 ((1 - t) * (c1.g : ℚ) + t * (c2.g : ℚ)),
   rustCastU8 ((1 - t) * (c1.b : ℚ) + t * (c2.b : ℚ))⟩

/-- 2D framebuffer sample coordinate (`screen::Point`, `i32` fields). -/
structure Point2 where
  x : ℤ
  y : ℤ
  deriving DecidableEq, Repr

/-- A framebuffer cell (`ColorCell` in screen.rs; the `on` field is named
`isOn` because `on` is reserved in Lean). -/
structure ColorCell where
  isOn : Bool
  color : Rgb
  deriving DecidableEq, Repr

/-- The framebuffer (`Screen` in screen.rs).  `content y x` is
`content[y][x]`; cells outside `[0,width) × [0,height)` are never read nor
written by the embedded operations. -/
structure Screen where
  width : ℕ
  height : ℕ
  content : ℤ → ℤ → ColorCell

/-- The conjunction of the `x_in_bounds` and `y_in_bounds` tests of
`Screen::write_color` (with `>= 0` as in the source). -/
def inScreenBounds (s : Screen) (p : Point2) : Prop :=
  (0 ≤ p.x ∧ p.x < (s.width : ℤ)) ∧ (0 ≤ p.y ∧ p.y < (s.height : ℤ))

instance (s : Screen) (p : Point2) : Decidable (inScreenBounds s p) := by
  unfold inScreenBounds; infer_instance

/-- `Screen::write_color`: bounds-checked single-sample write; out-of-bounds
writes are a silent no-op. -/
def write_color (s : Screen) (val : Bool) (point : Point2) (color : Rgb) : Screen :=
  if inScreenBounds s point then
    { s with content := fun y x =>
        if y = point.y ∧ x = point.x then ⟨val, color⟩ else s.content y x }
  else s

/-- `BlockPixel::to_char` (screen.rs): the 2×2 block sub-grid, indexed
`p row col`, mapped through the 16-arm `match`. -/
def blockToChar (p : Fin 2 → Fin 2 → Bool) : Char :=
  match p 0 0, p 0 1, p 1 0, p 1 1 with
  | false, false, false, false => ' '
  | true,  false, false, false => '▘'
  | false, true,  false, false => '▝'
  | true,  true,  false, false => '▀'
  | false, false, true,  false => '▖'
  | true,  false, true,  false => '▌'
  | false, true,  true,  false => '▞'
  | true,  true,  true,  false => '▛'
  | false, false, false, true  => '▗'
  | true,  false, false, true  => '▚'
  | false, true,  false, true  => '▐'
  | true,  true,  false, true  => '▜'
  | false, false, true,  true  => '▄'
  | true,  false, true,  true  => '▙'
  | false, true,  true,  true  => '▟'
  | true,  true,  true,  true  => '█'

/-- The bit pattern assembled by `BrailePixel::to_char` before the
`0x28 << 8` tag is or-ed in (the eight bits are disjoint). -/
def braileBits (p : Fin 4 → Fin 2 → Bool) : ℕ :=
  (if p 0 0 then 1 else 0) + (if p 1 0 then 2 else 0) + (if p 2 0 then 4 else 0) +
  (if p 0 1 then 8 else 0) + (if p 1 1 then 16 else 0) + (if p 2 1 then 32 else 0) +
  (if p 3 0 then 64 else 0) + (if p 3 1 then 128 else 0)

/-- `BrailePixel::to_char` (screen.rs): the 2×4 dot-matrix sub-grid, indexed
`p row col`, packed into the braille unicode block `U+2800 ..= U+28FF`. -/
def braileToChar (p : Fin 4 → Fin 2 → Bool) : Char :=
  Char.ofNat (0x2800 + braileBits p)

/-- The all-off / all-on 2×2 patterns. -/
def blockAllOff : Fin 2 → Fin 2 → Bool := fun _ _ => false

def blockAllOn : Fin 2 → Fin 2 → Bool := fun _ _ => true

/-- The all-off / all-on 2×4 patterns. -/
def braileAllOff : Fin 4 → Fin 2 → Bool := fun _ _ => false

def braileAllOn : Fin 4 → Fin 2 → Bool := fun _ _ => true

/-- Bool-to-ℕ reading of the conditional add used by `braileBits`. -/
theorem if_bool_eq_mul_toNat (b : Bool) (n : ℕ) : (if b then n else 0) = n * b.toNat := by
  cases b <;> simp

theorem bool_toNat_inj (a b : Bool) (h : a.toNat = b.toNat) : a = b := by
  cases a <;> cases b <;> simp_all

/-- The eight disjoint bits of `BrailePixel::to_char` determine the pattern. -/
theorem braileBits_injective : Function.Injective braileBits := by
  intro p q h
  unfold braileBits at h
  simp only [if_bool_eq_mul_toNat] at h
  have hle : ∀ b : Bool, b.toNat ≤ 1 := fun b => by cases b <;> simp
  have b00 := hle (p 0 0); have b10 := hle (p 1 0); have b20 := hle (p 2 0)
  have b01 := hle (p 0 1); have b11 := hle (p 1 1); have b21 := hle (p 2 1)
  have b30 := hle (p 3 0); have b31 := hle (p 3 1)
  have c00 := hle (q 0 0); have c10 := hle (q 1 0); have c20 := hle (q 2 0)
  have c01 := hle (q 0 1); have c11 := hle (q 1 1); have c21 := hle (q 2 1)
  have c30 := hle (q 3 0); have c31 := hle (q 3 1)
  have h00 : p 0 0 = q 0 0 := bool_toNat_inj _ _ (by omega)
  have h10 : p 1 0 = q 1 0 := bool_toNat_inj _ _ (by omega)
  have h20 : p 2 0 = q 2 0 := bool_toNat_inj _ _ (by omega)
  have h01 : p 0 1 = q 0 1 := bool_toNat_inj _ _ (by omega)
  have h11 : p 1 1 = q 1 1 := bool_toNat_inj _ _ (by omega)
  have h21 : p 2 1 = q 2 1 := bool_toNat_inj _ _ (by omega)
  have h30 : p 3 0 = q 3 0 := bool_toNat_inj _ _ (by omega)
  have h31 : p 3 1 = q 3 1 := bool_toNat_inj _ _ (by omega)
  funext i j
  fin_cases i <;> fin_cases j
  · exact h00
  · exact h01
  · exact h10
  · exact h11
  · exact h20
  · exact h21
  · exact h30
  · exact h31

set_option maxRecDepth 40000

/-- C3: both glyph packers are total by construction (they are Lean
functions on the full pattern types); the all-off pattern maps to the blank
glyph (`' '` for the block shape, the empty braille cell `U+2800` for the
dot-matrix shape), the all-on pattern maps to the fully-filled glyph
(`'█'`, resp. `U+28FF`), and both mappings are injective on all
`2^(W*H)` patterns. -/
theorem c3_glyph_packing :
    blockToChar blockAllOff = ' ' ∧ blockToChar blockAllOn = '█' ∧
    Function.Injective blockToChar ∧
    braileToChar braileAllOff = Char.ofNat 0x2800 ∧
    braileToChar braileAllOn = Char.ofNat 0x28FF ∧
    Function.Injective braileToChar := by
  refine ⟨by decide, by decide, by decide, by decide, by decide, ?_⟩
  have key : ∀ n : Fin 256, (Char.ofNat (0x2800 + (n : ℕ))).toNat = 0x2800 + (n : ℕ) := by decide
  intro p q h
  apply braileBits_injective
  have hvp : braileBits p < 256 := by
    unfold braileBits; split_ifs <;> norm_num
  have hvq : braileBits q < 256 := by
    unfold braileBits; split_ifs <;> norm_num
  have hp := key ⟨braileBits p, hvp⟩
  have hq := key ⟨braileBits q, hvq⟩
  simp only [Fin.val_mk] at hp hq
  have h2 := congrArg Char.toNat h
  unfold braileToChar at h2
  rw [hp, hq] at h2
  omega

/-- State of the Bresenham loops of `Screen::line_color` and
`Screen::line_color_clipped`: current point, error accumulator, and the
step counter used for color interpolation. -/
structure BresState where
  x : ℤ
  y : ℤ
  err : ℤ
  step : ℕ
  deriving DecidableEq, Repr

/-- The update at the bottom of each loop iteration (the code is textually
identical in `line_color` and `line_color_clipped`): `curr_err` is read
once, then `x`/`err` move when `2*curr_err >= delta_y` and `y`/`err` move
when `2*curr_err <= delta_x`, and `step` increments. -/
def bresAdvance (delta_x delta_y step_x step_y : ℤ) (st : BresState) : BresState :=
  { x := if delta_y ≤ 2 * st.err then st.x + step_x else st.x
    y := if 2 * st.err ≤ delta_x then st.y + step_y else st.y
    err := st.err + (if delta_y ≤ 2 * st.err then delta_y else 0) +
      (if 2 * st.err ≤ delta_x then delta_x else 0)
    step := st.step + 1 }

/-- The `loop` of `Screen::line_color`, with fuel: write the current sample
with the step-interpolated color, stop after writing the end point,
otherwise advance.  `none` means the fuel ran out (shown impossible for
fuel `max |Δx| |Δy| + 1` in C10). -/
def lineColorGo (e : Point2) (start_color end_color : Rgb)
    (delta_x delta_y step_x step_y : ℤ) (total_steps : ℚ) :
    ℕ → Screen → BresState → Option Screen
  | 0, _, _ => none
  | fuel + 1, scr, st =>
    let scr2 := write_color scr true ⟨st.x, st.y⟩
      (blendRgb start_color end_color ((st.step : ℚ) / total_steps))
    if st.x = e.x ∧ st.y = e.y then some scr2
    else lineColorGo e start_color end_color delta_x delta_y step_x step_y total_steps
      fuel scr2 (bresAdvance delta_x delta_y step_x step_y st)

/-- `Screen::line_color`: Bresenham line with linear color interpolation
along the step count. -/
def line_color (s : Screen) (start e : Point2) (start_color end_color : Rgb) : Screen :=
  let delta_x := |e.x - start.x|
  let step_x : ℤ := if start.x < e.x then 1 else -1
  let delta_y := -|e.y - start.y|
  let step_y : ℤ := if start.y < e.y then 1 else -1
  let total_steps : ℚ := ((max (|delta_x| + |(-delta_y)|) 1 : ℤ) : ℚ)
  (lineColorGo e start_color end_color delta_x delta_y step_x step_y total_steps
      ((max |e.x - start.x| |e.y - start.y|).toNat + 1) s
      ⟨start.x, start.y, delta_x + delta_y, 0⟩).getD s

/-- The `loop` of `Screen::line_color_clipped`: identical to `lineColorGo`
except that each sample is first tested against the rectangular clip
region. -/
def lineColorClippedGo (e : Point2) (start_color end_color : Rgb)
    (delta_x delta_y step_x step_y : ℤ) (total_steps : ℚ)
    (clip_x_min clip_x_max clip_y_min clip_y_max : ℤ) :
    ℕ → Screen → BresState → Option Screen
  | 0, _, _ => none
  | fuel + 1, scr, st =>
    let scr2 :=
      if clip_x_min ≤ st.x ∧ st.x < clip_x_max ∧ clip_y_min ≤ st.y ∧ st.y < clip_y_max then
        write_color scr true ⟨st.x, st.y⟩
          (blendRgb start_color end_color ((st.step : ℚ) / total_steps))
      else scr
    if st.x = e.x ∧ st.y = e.y then some scr2
    else lineColorClippedGo e start_color end_color delta_x delta_y step_x step_y total_steps
      clip_x_min clip_x_max clip_y_min clip_y_max
      fuel scr2 (bresAdvance delta_x delta_y step_x step_y st)

/-- `Screen::line_color_clipped`: Bresenham line with color interpolation,
drawing only samples inside `[clip_x_min, clip_x_max) × [clip_y_min,
clip_y_max)`. -/
def line_color_clipped (s : Screen) (start e : Point2) (start_color end_color : Rgb)
    (clip_x_min clip_x_max clip_y_min clip_y_max : ℤ) : Screen :=
  let delta_x := |e.x - start.x|
  let step_x : ℤ := if start.x < e.x then 1 else -1
  let delta_y := -|e.y - start.y|
  let step_y : ℤ := if start.y < e.y then 1 else -1
  let total_steps : ℚ := ((max (|delta_x| + |(-delta_y)|) 1 : ℤ) : ℚ)
  (lineColorClippedGo e start_color end_color delta_x delta_y step_x step_y total_steps
      clip_x_min clip_x_max clip_y_min clip_y_max
      ((max |e.x - start.x| |e.y - start.y|).toNat + 1) s
      ⟨start.x, start.y, delta_x + delta_y, 0⟩).getD s

/-- 3D point (`three::Point`, `f32` fields modelled as `ℚ`). -/
structure Point3 where
  x : ℚ
  y : ℚ
  z : ℚ
  deriving DecidableEq, Repr

/-- The sine/cosine values `Camera::world_to_camera` computes from the
camera angles (`self.yaw.sin()` etc.); carried as parameters because the
embedding has no transcendental functions on `ℚ`. -/
structure Trig where
  s_yaw : ℚ
  c_yaw : ℚ
  s_pitch : ℚ
  c_pitch : ℚ
  s_roll : ℚ
  c_roll : ℚ
  deriving DecidableEq, Repr

/-- `three::Camera`.  `tanHalfFov` models the value
`(self.viewport_fov / 2.0).tan()`: the source uses `viewport_fov` only
through this expression. -/
structure Camera where
  coordinates : Point3
  yaw : ℚ
  pitch : ℚ
  roll : ℚ
  viewport_distance : ℚ
  tanHalfFov : ℚ
  screen : Screen

/-- `Camera::world_to_camera`: translate by the camera position, then undo
yaw, pitch and roll in that order. -/
def world_to_camera (cam : Camera) (tr : Trig) (point : Point3) : Point3 :=
  let delta_x := point.x - cam.coordinates.x
  let delta_y := point.y - cam.coordinates.y
  let delta_z := point.z - cam.coordinates.z
  let unyawed_x := delta_x * tr.c_yaw - delta_z * tr.s_yaw
  let unyawed_y := delta_y
  let unyawed_z := delta_x * tr.s_yaw + delta_z * tr.c_yaw
  let unpitched_x := unyawed_x
  let unpitched_y := unyawed_y * tr.c_pitch - unyawed_z * tr.s_pitch
  let unpitched_z := unyawed_y * tr.s_pitch + unyawed_z * tr.c_pitch
  let unrolled_x := unpitched_x * tr.c_roll - unpitched_y * tr.s_roll
  let unrolled_y := unpitched_x * tr.s_roll + unpitched_y * tr.c_roll
  let unrolled_z := unpitched_z
  ⟨unrolled_x, unrolled_y, unrolled_z⟩

/-- `Camera::camera_to_screen`: perspective projection onto the viewport at
`z = viewport_distance`, mapped to framebuffer coordinates with y flipped
and rounded. -/
def camera_to_screen (cam : Camera) (point : Point3) : Point2 :=
  let viewport_x := point.x * cam.viewport_distance / point.z
  let viewport_y := point.y * cam.viewport_distance / point.z
  let viewport_width := 2 * cam.viewport_distance * cam.tanHalfFov
  let viewport_height := ((cam.screen.height : ℚ) / (cam.screen.width : ℚ)) * viewport_width
  let screen_x := (viewport_x / viewport_width + 1/2) * (cam.screen.width : ℚ)
  let screen_y := (1 - (viewport_y / viewport_height + 1/2)) * (cam.screen.height : ℚ)
  ⟨rround screen_x, rround screen_y⟩

/-- `Camera::is_in_frustum`: a camera-space point is inside the margin
(1.5×)-expanded view frustum. -/
def is_in_frustum (cam : Camera) (camera_point : Point3) : Prop :=
  ¬ camera_point.z < cam.viewport_distance ∧
  (let half_width := camera_point.z * cam.tanHalfFov * (3/2)
   let aspect := (cam.screen.height : ℚ) / (cam.screen.width : ℚ)
   let half_height := half_width * aspect
   |camera_point.x| ≤ half_width ∧ |camera_point.y| ≤ half_height)

instance (cam : Camera) (p : Point3) : Decidable (is_in_frustum cam p) := by
  unfold is_in_frustum; infer_instance

/-- The frustum-cull reject test of `Camera::edge_color` (the nested `if`s
whose innermost branch is `return`): both endpoints outside the
margin-expanded frustum, strictly on a common side, and both beyond the
margin-expanded half-extent computed at the nearer depth `z_min`. -/
def EdgeCullReject (cam : Camera) (camera_start camera_end : Point3) : Prop :=
  (¬ is_in_frustum cam camera_start ∧ ¬ is_in_frustum cam camera_end) ∧
  (let both_left := camera_start.x < 0 ∧ camera_end.x < 0
   let both_right := 0 < camera_start.x ∧ 0 < camera_end.x
   let both_up := 0 < camera_start.y ∧ 0 < camera_end.y
   let both_down := camera_start.y < 0 ∧ camera_end.y < 0
   (both_left ∨ both_right ∨ both_up ∨ both_down) ∧
   (let z_min := min camera_start.z camera_end.z
    let half_width := z_min * cam.tanHalfFov * (3/2)
    let aspect := (cam.screen.height : ℚ) / (cam.screen.width : ℚ)
    let half_height := half_width * aspect
    (both_left ∧ camera_start.x < -half_width ∧ camera_end.x < -half_width) ∨
    (both_right ∧ half_width < camera_start.x ∧ half_width < camera_end.x) ∨
    (both_up ∧ half_height < camera_start.y ∧ half_height < camera_end.y) ∨
    (both_down ∧ camera_start.y < -half_height ∧ camera_end.y < -half_height)))

instance (cam : Camera) (p q : Point3) : Decidable (EdgeCullReject cam p q) := by
  unfold EdgeCullReject; infer_instance

/-- The near-plane interpolation parameter
`lambda = (viewport_distance - clipped.z) / (unclipped.z - clipped.z)` of
`Camera::edge_color` and `Camera::plot_model_in_viewport`. -/
def clipLambda (viewport_distance : ℚ) (clipped unclipped : Point3) : ℚ :=
  (viewport_distance - clipped.z) / (unclipped.z - clipped.z)

/-- The synthesized clip point `new_clipped` of `Camera::edge_color` and
`Camera::plot_model_in_viewport`: position interpolated at `lambda`, `z`
set to `viewport_distance` literally. -/
def clipPoint (viewport_distance : ℚ) (clipped unclipped : Point3) : Point3 :=
  let lambda := clipLambda viewport_distance clipped unclipped
  ⟨lambda * (unclipped.x - clipped.x) + clipped.x,
   lambda * (unclipped.y - clipped.y) + clipped.y,
   viewport_distance⟩

/-- `Camera::edge_color`: near-plane clip, frustum cull, and rasterization
of one colored segment; returns the camera with the updated screen. -/
def edge_color (cam : Camera) (tr : Trig) (start end_ : Point3)
    (start_color end_color : Rgb) : Camera :=
  let camera_start := world_to_camera cam tr start
  let camera_end := world_to_camera cam tr end_
  if camera_start.z < cam.viewport_distance ∧ camera_end.z < cam.viewport_distance then cam
  else if ¬ camera_start.z < cam.viewport_distance ∧
      ¬ camera_end.z < cam.viewport_distance then
    if EdgeCullReject cam camera_start camera_end then cam
    else
      { cam with
          screen := line_color cam.screen (camera_to_screen cam camera_start)
                      (camera_to_screen cam camera_end) start_color end_color }
  else
    let sel : Point3 × Point3 × Rgb × Rgb :=
      if camera_start.z < cam.viewport_distance then
        (camera_start, camera_end, start_color, end_color)
      else (camera_end, camera_start, end_color, start_color)
    let clipped := sel.1
    let unclipped := sel.2.1
    let clipped_color := sel.2.2.1
    let unclipped_color := sel.2.2.2
    let lambda := clipLambda cam.viewport_distance clipped unclipped
    let new_clipped := clipPoint cam.viewport_distance clipped unclipped
    let clip_color := blendRgb clipped_color unclipped_color lambda
    { cam with
        screen := line_color cam.screen (camera_to_screen cam new_clipped)
                    (camera_to_screen cam unclipped) clip_color unclipped_color }

/-- `model::ColoredEdge` (the `end` field is `end_` because `end` is
reserved in Lean). -/
structure ColoredEdge where
  start : Point3
  end_ : Point3
  start_color : Rgb
  end_color : Rgb
  start_t : ℚ
  end_t : ℚ

/-- `model::Model` (only the fields the rendering pipeline reads). -/
structure Model where
  points : List Point3
  edges : List (Point3 × Point3)
  colored_edges : List ColoredEdge
  position : Point3

/-- `Model::model_to_world`: translate a model-space point by the model
position. -/
def model_to_world (m : Model) (point : Point3) : Point3 :=
  ⟨point.x + m.position.x, point.y + m.position.y, point.z + m.position.z⟩

/-- `Camera::camera_to_viewport_screen`: like `camera_to_screen` but scaled
to an explicit viewport size and aspect ratio. -/
def camera_to_viewport_screen (cam : Camera) (point : Point3)
    (viewport_width viewport_height : ℕ) (aspect : ℚ) : Point2 :=
  let viewport_x := point.x * cam.viewport_distance / point.z
  let viewport_y := point.y * cam.viewport_distance / point.z
  let vp_width := 2 * cam.viewport_distance * cam.tanHalfFov
  let vp_height := aspect * vp_width
  let screen_x := (viewport_x / vp_width + 1/2) * (viewport_width : ℚ)
  let screen_y := (1 - (viewport_y / vp_height + 1/2)) * (viewport_height : ℚ)
  ⟨rround screen_x, rround screen_y⟩

/-- The body of the per-edge loop of `Camera::plot_model_in_viewport`
(given the camera already carrying the override pose, with `tr` the trig
values of that pose): near-plane clip, project into the viewport, offset
by the viewport column, and draw clipped to the region. -/
def plotEdgeInViewport (cam : Camera) (tr : Trig) (m : Model) (aspect : ℚ)
    (viewport_x_offset viewport_width viewport_height : ℕ)
    (scr : Screen) (edge : ColoredEdge) : Screen :=
  let start := model_to_world m edge.start
  let end_ := model_to_world m edge.end_
  let camera_start := world_to_camera cam tr start
  let camera_end := world_to_camera cam tr end_
  if camera_start.z < cam.viewport_distance ∧ camera_end.z < cam.viewport_distance then scr
  else
    let sel : Point2 × Point2 × Rgb × Rgb :=
      if ¬ camera_start.z < cam.viewport_distance ∧
          ¬ camera_end.z < cam.viewport_distance then
        (camera_to_viewport_screen cam camera_start viewport_width viewport_height aspect,
         camera_to_viewport_screen cam camera_end viewport_width viewport_height aspect,
         edge.start_color, edge.end_color)
      else
        let sel2 : Point3 × Point3 × Rgb × Rgb :=
          if camera_start.z < cam.viewport_distance then
            (camera_start, camera_end, edge.start_color, edge.end_color)
          else (camera_end, camera_start, edge.end_color, edge.start_color)
        let clipped := sel2.1
        let unclipped := sel2.2.1
        let clipped_color := sel2.2.2.1
        let unclipped_color := sel2.2.2.2
        let lambda := clipLambda cam.viewport_distance clipped unclipped
        let new_clipped := clipPoint cam.viewport_distance clipped unclipped
        let clip_color := blendRgb clipped_color unclipped_color lambda
        (camera_to_viewport_screen cam new_clipped viewport_width viewport_height aspect,
         camera_to_viewport_screen cam unclipped viewport_width viewport_height aspect,
         clip_color, unclipped_color)
    let screen_start := sel.1
    let screen_end := sel.2.1
    let start_color := sel.2.2.1
    let end_color := sel.2.2.2
    let offset_start : Point2 := ⟨screen_start.x + (viewport_x_offset : ℤ), screen_start.y⟩
    let offset_end : Point2 := ⟨screen_end.x + (viewport_x_offset : ℤ), screen_end.y⟩
    line_color_clipped scr offset_start offset_end start_color end_color
      (viewport_x_offset : ℤ) ((viewport_x_offset : ℤ) + (viewport_width : ℤ))
      0 (viewport_height : ℤ)

/-- `Camera::plot_model_in_viewport`: save the camera pose, substitute the
override pose, draw every colored edge clipped to the viewport column, and
restore the original pose.  `tr` carries the sin/cos values of the
override yaw/pitch (and the camera roll), which is what the source
computes inside `world_to_camera` after the overrides are installed. -/
def plot_model_in_viewport (cam : Camera) (tr : Trig) (m : Model)
    (camera_pos : Point3) (yaw pitch : ℚ)
    (viewport_x_offset viewport_width viewport_height : ℕ) : Camera :=
  let cam2 := { cam with coordinates := camera_pos, yaw := yaw, pitch := pitch }
  let aspect := (viewport_height : ℚ) / (viewport_width : ℚ)
  let finalScreen := m.colored_edges.foldl
    (plotEdgeInViewport cam2 tr m aspect viewport_x_offset viewport_width viewport_height)
    cam2.screen
  { cam2 with
      screen := finalScreen
      coordinates := cam.coordinates
      yaw := cam.yaw
      pitch := cam.pitch }

/-- C9: `write_color` is a bounds-checked single-sample write: an
out-of-bounds point leaves the framebuffer completely unchanged (and, being
a total Lean function, cannot fault), and an in-bounds point sets exactly
that one cell to the given on/off value and color, leaving every other cell
unchanged. -/
theorem c9_write_color_bounds (s : Screen) (val : Bool) (p : Point2) (color : Rgb) :
    (¬ inScreenBounds s p → write_color s val p color = s) ∧
    (inScreenBounds s p →
      (write_color s val p color).content p.y p.x = ⟨val, color⟩ ∧
      ∀ x y : ℤ, ¬(x = p.x ∧ y = p.y) →
        (write_color s val p color).content y x = s.content y x) := by
  constructor
  · intro h
    unfold write_color
    rw [if_neg]
    exact fun hc => h hc
  · intro h
    unfold write_color
    rw [if_pos h]
    refine ⟨by simp, ?_⟩
    intro x y hxy
    simp only
    rw [if_neg]
    tauto

/-- Witness for C9 at a concrete screen and points. -/
theorem c9_write_color_bounds_witness :
    (write_color ⟨4, 4, fun _ _ => ⟨false, ⟨255, 255, 255⟩⟩⟩ true ⟨7, 2⟩ ⟨1, 2, 3⟩
      = ⟨4, 4, fun _ _ => ⟨false, ⟨255, 255, 255⟩⟩⟩) ∧
    ((write_color ⟨4, 4, fun _ _ => ⟨false, ⟨255, 255, 255⟩⟩⟩ true ⟨1, 2⟩ ⟨1, 2, 3⟩).content 2 1
      = ⟨true, ⟨1, 2, 3⟩⟩) := by
  constructor
  · exact (c9_write_color_bounds ⟨4, 4, fun _ _ => ⟨false, ⟨255, 255, 255⟩⟩⟩ true ⟨7, 2⟩ ⟨1, 2, 3⟩).1
      (by decide)
  · exact ((c9_write_color_bounds ⟨4, 4, fun _ _ => ⟨false, ⟨255, 255, 255⟩⟩⟩ true ⟨1, 2⟩ ⟨1, 2, 3⟩).2
      (by decide)).1

/-- `write_color` never changes the screen dimensions. -/
theorem write_color_width (s : Screen) (val : Bool) (p : Point2) (color : Rgb) :
    (write_color s val p color).width = s.width := by
  unfold write_color; split <;> rfl

theorem write_color_height (s : Screen) (val : Bool) (p : Point2) (color : Rgb) :
    (write_color s val p color).height = s.height := by
  unfold write_color; split <;> rfl

/-- `write_color` changes no cell other than the written one. -/
theorem write_color_content_ne (s : Screen) (val : Bool) (p : Point2) (color : Rgb)
    (x y : ℤ) (h : ¬(y = p.y ∧ x = p.x)) :
    (write_color s val p color).content y x = s.content y x := by
  unfold write_color
  split
  · simp only
    rw [if_neg h]
  · rfl

/-- An out-of-bounds `write_color` is the identity. -/
theorem write_color_oob (s : Screen) (val : Bool) (p : Point2) (color : Rgb)
    (h : ¬ inScreenBounds s p) : write_color s val p color = s := by
  unfold write_color
  exact if_neg h

/-- C6: `plot_model_in_viewport` restores the camera coordinates, yaw and
pitch it overrode, and never touches the roll: after the call all four
equal their values before the call, regardless of the model drawn. -/
theorem c6_viewport_restores_pose (cam : Camera) (tr : Trig) (m : Model)
    (camera_pos : Point3) (yaw pitch : ℚ) (off vw vh : ℕ) :
    (plot_model_in_viewport cam tr m camera_pos yaw pitch off vw vh).coordinates =
        cam.coordinates ∧
    (plot_model_in_viewport cam tr m camera_pos yaw pitch off vw vh).yaw = cam.yaw ∧
    (plot_model_in_viewport cam tr m camera_pos yaw pitch off vw vh).pitch = cam.pitch ∧
    (plot_model_in_viewport cam tr m camera_pos yaw pitch off vw vh).roll = cam.roll :=
  ⟨rfl, rfl, rfl, rfl⟩

/-- C7: a segment whose two camera-space endpoints both lie strictly behind
the near plane is discarded before any sample is written: `edge_color`
returns the camera unchanged, and the per-edge body of
`plot_model_in_viewport` returns the framebuffer unchanged. -/
theorem c7_behind_near_plane_no_writes (cam : Camera) (tr : Trig) :
    (∀ (start end_ : Point3) (c1 c2 : Rgb),
      (world_to_camera cam tr start).z < cam.viewport_distance →
      (world_to_camera cam tr end_).z < cam.viewport_distance →
      edge_color cam tr start end_ c1 c2 = cam) ∧
    (∀ (m : Model) (aspect : ℚ) (off vw vh : ℕ) (scr : Screen) (edge : ColoredEdge),
      (world_to_camera cam tr (model_to_world m edge.start)).z < cam.viewport_distance →
      (world_to_camera cam tr (model_to_world m edge.end_)).z < cam.viewport_distance →
      plotEdgeInViewport cam tr m aspect off vw vh scr edge = scr) := by
  constructor
  · intro start end_ c1 c2 hs he
    unfold edge_color
    rw [if_pos ⟨hs, he⟩]
  · intro m aspect off vw vh scr edge hs he
    unfold plotEdgeInViewport
    rw [if_pos ⟨hs, he⟩]

/-- Witness for C7 at a concrete camera and segment. -/
theorem c7_behind_near_plane_no_writes_witness :
    edge_color ⟨⟨0, 0, 0⟩, 0, 0, 0, 1, 1, ⟨4, 4, fun _ _ => ⟨false, ⟨255, 255, 255⟩⟩⟩⟩
        ⟨0, 1, 0, 1, 0, 1⟩ ⟨0, 0, 0⟩ ⟨1, 1, 0⟩ ⟨1, 2, 3⟩ ⟨4, 5, 6⟩ =
      ⟨⟨0, 0, 0⟩, 0, 0, 0, 1, 1, ⟨4, 4, fun _ _ => ⟨false, ⟨255, 255, 255⟩⟩⟩⟩ :=
  (c7_behind_near_plane_no_writes _ ⟨0, 1, 0, 1, 0, 1⟩).1 ⟨0, 0, 0⟩ ⟨1, 1, 0⟩ ⟨1, 2, 3⟩ ⟨4, 5, 6⟩
    (by norm_num [world_to_camera]) (by norm_num [world_to_camera])

/-- With the clip region set to the whole framebuffer, the guarded write of
`lineColorClippedGo` coincides with the unguarded one of `lineColorGo`, so
the two loops agree step by step. -/
theorem lineColorClippedGo_full_region (e : Point2) (c1 c2 : Rgb)
    (delta_x delta_y step_x step_y : ℤ) (total_steps : ℚ) (w h : ℕ) :
    ∀ (fuel : ℕ) (scr : Screen) (st : BresState), scr.width = w → scr.height = h →
      lineColorClippedGo e c1 c2 delta_x delta_y step_x step_y total_steps
        0 (w : ℤ) 0 (h : ℤ) fuel scr st =
      lineColorGo e c1 c2 delta_x delta_y step_x step_y total_steps fuel scr st := by
  intro fuel
  induction fuel with
  | zero => intro scr st _ _; rfl
  | succ n ih =>
    intro scr st hw hh
    unfold lineColorClippedGo lineColorGo
    simp only
    by_cases hreg : (0 : ℤ) ≤ st.x ∧ st.x < (w : ℤ) ∧ (0 : ℤ) ≤ st.y ∧ st.y < (h : ℤ)
    · rw [if_pos hreg]
      split
      · rfl
      · exact ih _ _ (by rw [write_color_width, hw]) (by rw [write_color_height, hh])
    · rw [if_neg hreg]
      have hoob : ¬ inScreenBounds scr ⟨st.x, st.y⟩ := by
        unfold inScreenBounds
        simp only [hw, hh]
        tauto
      rw [write_color_oob scr true ⟨st.x, st.y⟩ _ hoob]
      split
      · rfl
      · exact ih _ _ hw hh

/-- C8: `line_color_clipped` with the clip region equal to the full
framebuffer (`[0,width) × [0,height)`) produces exactly the same
framebuffer as `line_color` with the same endpoints and colors. -/
theorem c8_clipped_full_region_eq_line_color (s : Screen) (start e : Point2)
    (start_color end_color : Rgb) :
    line_color_clipped s start e start_color end_color 0 (s.width : ℤ) 0 (s.height : ℤ) =
      line_color s start e start_color end_color := by
  simp only [line_color_clipped, line_color]
  rw [lineColorClippedGo_full_region _ _ _ _ _ _ _ _ s.width s.height _ _ _ rfl rfl]

/-- A cell outside the clip region is never touched by
`lineColorClippedGo`. -/
theorem lineColorClippedGo_outside (e : Point2) (c1 c2 : Rgb)
    (delta_x delta_y step_x step_y : ℤ) (total_steps : ℚ)
    (clip_x_min clip_x_max clip_y_min clip_y_max : ℤ) (x y : ℤ)
    (hxy : ¬(clip_x_min ≤ x ∧ x < clip_x_max ∧ clip_y_min ≤ y ∧ y < clip_y_max)) :
    ∀ (fuel : ℕ) (scr : Screen) (st : BresState) (r : Screen),
      lineColorClippedGo e c1 c2 delta_x delta_y step_x step_y total_steps
        clip_x_min clip_x_max clip_y_min clip_y_max fuel scr st = some r →
      r.content y x = scr.content y x := by
  intro fuel
  induction fuel with
  | zero => intro scr st r h; exact absurd h (by simp [lineColorClippedGo])
  | succ n ih =>
    intro scr st r h
    unfold lineColorClippedGo at h
    simp only at h
    by_cases hreg : clip_x_min ≤ st.x ∧ st.x < clip_x_max ∧ clip_y_min ≤ st.y ∧ st.y < clip_y_max
    · rw [if_pos hreg] at h
      have hne : ¬(y = st.y ∧ x = st.x) := by
        rintro ⟨rfl, rfl⟩
        exact hxy hreg
      have hw := write_color_content_ne scr true ⟨st.x, st.y⟩
        (blendRgb c1 c2 ((st.step : ℚ) / total_steps)) x y hne
      split at h
      · cases h
        exact hw
      · rw [ih _ _ _ h, hw]
    · rw [if_neg hreg] at h
      split at h
      · cases h
        rfl
      · exact ih _ _ _ h

/-- A cell outside the clip region is never touched by
`line_color_clipped`. -/
theorem line_color_clipped_outside (s : Screen) (start e : Point2) (c1 c2 : Rgb)
    (clip_x_min clip_x_max clip_y_min clip_y_max : ℤ) (x y : ℤ)
    (hxy : ¬(clip_x_min ≤ x ∧ x < clip_x_max ∧ clip_y_min ≤ y ∧ y < clip_y_max)) :
    (line_color_clipped s start e c1 c2
      clip_x_min clip_x_max clip_y_min clip_y_max).content y x = s.content y x := by
  unfold line_color_clipped
  simp only
  set go := lineColorClippedGo e c1 c2 (|e.x - start.x|) (-|e.y - start.y|)
    (if start.x < e.x then 1 else -1) (if start.y < e.y then 1 else -1)
    ((max (|(|e.x - start.x|)| + |(-(-|e.y - start.y|))|) 1 : ℤ) : ℚ)
    clip_x_min clip_x_max clip_y_min clip_y_max
    ((max |e.x - start.x| |e.y - start.y|).toNat + 1) s
    ⟨start.x, start.y, |e.x - start.x| + -|e.y - start.y|, 0⟩ with hgo
  cases hg : go with
  | none => rfl
  | some r =>
    simp only [Option.getD_some]
    exact lineColorClippedGo_outside e c1 c2 _ _ _ _ _ _ _ _ _ x y hxy _ _ _ _ (hgo ▸ hg)

/-- The per-edge body of `plot_model_in_viewport` never touches a cell
outside the viewport region. -/
theorem plotEdgeInViewport_outside (cam : Camera) (tr : Trig) (m : Model) (aspect : ℚ)
    (off vw vh : ℕ) (scr : Screen) (edge : ColoredEdge) (x y : ℤ)
    (hxy : ¬((off : ℤ) ≤ x ∧ x < (off : ℤ) + (vw : ℤ) ∧ 0 ≤ y ∧ y < (vh : ℤ))) :
    (plotEdgeInViewport cam tr m aspect off vw vh scr edge).content y x =
      scr.content y x := by
  simp only [plotEdgeInViewport]
  split
  · rfl
  · exact line_color_clipped_outside _ _ _ _ _ _ _ _ _ x y hxy

/-- C5: `plot_model_in_viewport` leaves every framebuffer cell outside the
viewport region `[column_offset, column_offset + column_width) ×
[0, row_height)` unchanged, for arbitrary input geometry. -/
theorem c5_viewport_confined (cam : Camera) (tr : Trig) (m : Model)
    (camera_pos : Point3) (yaw pitch : ℚ) (off vw vh : ℕ) (x y : ℤ)
    (hxy : ¬((off : ℤ) ≤ x ∧ x < (off : ℤ) + (vw : ℤ) ∧ 0 ≤ y ∧ y < (vh : ℤ))) :
    (plot_model_in_viewport cam tr m camera_pos yaw pitch off vw vh).screen.content y x =
      cam.screen.content y x := by
  unfold plot_model_in_viewport
  simp only
  generalize m.colored_edges = l
  set cam2 : Camera := { cam with coordinates := camera_pos, yaw := yaw, pitch := pitch }
    with hcam2
  have : ∀ (l : List ColoredEdge) (scr : Screen),
      (l.foldl (plotEdgeInViewport cam2 tr m ((vh : ℚ) / (vw : ℚ)) off vw vh) scr).content y x
        = scr.content y x := by
    intro l
    induction l with
    | nil => intro scr; rfl
    | cons a t ih =>
      intro scr
      simp only [List.foldl_cons]
      rw [ih, plotEdgeInViewport_outside cam2 tr m _ off vw vh scr a x y hxy]
  exact this l cam.screen

/-- Witness for C5 at a concrete camera, model and out-of-region cell. -/
theorem c5_viewport_confined_witness :
    (plot_model_in_viewport
        ⟨⟨0, 0, 0⟩, 0, 0, 0, 1, 1, ⟨8, 4, fun _ _ => ⟨false, ⟨255, 255, 255⟩⟩⟩⟩
        ⟨0, 1, 0, 1, 0, 1⟩
        ⟨[], [], [⟨⟨0, 0, 5⟩, ⟨20, 0, 5⟩, ⟨0, 0, 0⟩, ⟨9, 9, 9⟩, 0, 1⟩], ⟨0, 0, 0⟩⟩
        ⟨0, 0, 0⟩ 0 0 0 4 4).screen.content 1 6 =
      (⟨8, 4, fun _ _ => ⟨false, ⟨255, 255, 255⟩⟩⟩ : Screen).content 1 6 :=
  c5_viewport_confined
    ⟨⟨0, 0, 0⟩, 0, 0, 0, 1, 1, ⟨8, 4, fun _ _ => ⟨false, ⟨255, 255, 255⟩⟩⟩⟩
    ⟨0, 1, 0, 1, 0, 1⟩
    ⟨[], [], [⟨⟨0, 0, 5⟩, ⟨20, 0, 5⟩, ⟨0, 0, 0⟩, ⟨9, 9, 9⟩, 0, 1⟩], ⟨0, 0, 0⟩⟩
    ⟨0, 0, 0⟩ 0 0 0 4 4 6 1 (by decide)

/-- For an interpolation parameter in `[0,1]` and channels in `[0,255]`,
the `as u8` cast of the straight-line channel blend does not saturate: it
is the floor of the exact blend, and the exact blend stays between the two
endpoint channels. -/
theorem blend_channel_bounds (a b : ℕ) (t : ℚ) (ha : a ≤ 255) (hb : b ≤ 255)
    (h0 : 0 ≤ t) (h1 : t ≤ 1) :
    rustCastU8 ((1 - t) * (a : ℚ) + t * (b : ℚ)) =
      Int.toNat ⌊(1 - t) * (a : ℚ) + t * (b : ℚ)⌋ ∧
    ((min a b : ℕ) : ℚ) ≤ (1 - t) * (a : ℚ) + t * (b : ℚ) ∧
    (1 - t) * (a : ℚ) + t * (b : ℚ) ≤ ((max a b : ℕ) : ℚ) := by
  have ha0 : (0 : ℚ) ≤ (a : ℚ) := Nat.cast_nonneg a
  have hb0 : (0 : ℚ) ≤ (b : ℚ) := Nat.cast_nonneg b
  have ht1 : (0 : ℚ) ≤ 1 - t := by linarith
  have haq : (a : ℚ) ≤ 255 := by exact_mod_cast ha
  have hbq : (b : ℚ) ≤ 255 := by exact_mod_cast hb
  have hub : (1 - t) * (a : ℚ) + t * (b : ℚ) ≤ 255 := by
    nlinarith [mul_nonneg ht1 (by linarith : (0 : ℚ) ≤ 255 - (a : ℚ)),
      mul_nonneg h0 (by linarith : (0 : ℚ) ≤ 255 - (b : ℚ))]
  refine ⟨?_, ?_, ?_⟩
  · unfold rustCastU8
    have hfl : ⌊(1 - t) * (a : ℚ) + t * (b : ℚ)⌋ ≤ 255 := by
      have := Int.floor_le_floor hub
      simpa using this
    omega
  · have hmina : ((min a b : ℕ) : ℚ) ≤ (a : ℚ) := by exact_mod_cast Nat.min_le_left a b
    have hminb : ((min a b : ℕ) : ℚ) ≤ (b : ℚ) := by exact_mod_cast Nat.min_le_right a b
    nlinarith [mul_nonneg ht1 (sub_nonneg.mpr hmina), mul_nonneg h0 (sub_nonneg.mpr hminb)]
  · have hmaxa : (a : ℚ) ≤ ((max a b : ℕ) : ℚ) := by exact_mod_cast Nat.le_max_left a b
    have hmaxb : (b : ℚ) ≤ ((max a b : ℕ) : ℚ) := by exact_mod_cast Nat.le_max_right a b
    nlinarith [mul_nonneg ht1 (sub_nonneg.mpr hmaxa), mul_nonneg h0 (sub_nonneg.mpr hmaxb)]

/-- C4: for a segment with exactly one camera-space endpoint behind the
near plane, `edge_color` synthesizes a clip point whose `z` equals
`viewport_distance` exactly, at an interpolation parameter
`lambda ∈ [0,1]`, and rasterizes from it with the color `blendRgb
clipped_color unclipped_color lambda` — the straight-line channel blend at
`lambda`, cast to `u8` without saturation (each channel is the floor of a
value lying between the two original channels). -/
theorem c4_clip_point (cam : Camera) (tr : Trig) (start end_ : Point3) (c1 c2 : Rgb)
    (hone : ((world_to_camera cam tr start).z < cam.viewport_distance ∧
        ¬ (world_to_camera cam tr end_).z < cam.viewport_distance) ∨
      (¬ (world_to_camera cam tr start).z < cam.viewport_distance ∧
        (world_to_camera cam tr end_).z < cam.viewport_distance))
    (hc1 : c1.r ≤ 255 ∧ c1.g ≤ 255 ∧ c1.b ≤ 255)
    (hc2 : c2.r ≤ 255 ∧ c2.g ≤ 255 ∧ c2.b ≤ 255) :
    let camera_start := world_to_camera cam tr start
    let camera_end := world_to_camera cam tr end_
    let sel : Point3 × Point3 × Rgb × Rgb :=
      if camera_start.z < cam.viewport_distance then
        (camera_start, camera_end, c1, c2)
      else (camera_end, camera_start, c2, c1)
    let lambda := clipLambda cam.viewport_distance sel.1 sel.2.1
    (clipPoint cam.viewport_distance sel.1 sel.2.1).z = cam.viewport_distance ∧
    0 ≤ lambda ∧ lambda ≤ 1 ∧
    ((blendRgb sel.2.2.1 sel.2.2.2 lambda).r =
        Int.toNat ⌊(1 - lambda) * (sel.2.2.1.r : ℚ) + lambda * (sel.2.2.2.r : ℚ)⌋ ∧
      (blendRgb sel.2.2.1 sel.2.2.2 lambda).g =
        Int.toNat ⌊(1 - lambda) * (sel.2.2.1.g : ℚ) + lambda * (sel.2.2.2.g : ℚ)⌋ ∧
      (blendRgb sel.2.2.1 sel.2.2.2 lambda).b =
        Int.toNat ⌊(1 - lambda) * (sel.2.2.1.b : ℚ) + lambda * (sel.2.2.2.b : ℚ)⌋) ∧
    edge_color cam tr start end_ c1 c2 =
      { cam with
          screen := line_color cam.screen
            (camera_to_screen cam (clipPoint cam.viewport_distance sel.1 sel.2.1))
            (camera_to_screen cam sel.2.1) (blendRgb sel.2.2.1 sel.2.2.2 lambda)
            sel.2.2.2 } := by
  intro camera_start camera_end sel lambda
  have hzsel : sel.1.z < cam.viewport_distance ∧
      ¬ sel.2.1.z < cam.viewport_distance := by
    rcases hone with ⟨h1, h2⟩ | ⟨h1, h2⟩
    · simp only [sel, if_pos h1]
      exact ⟨h1, h2⟩
    · simp only [sel, if_neg h1]
      exact ⟨h2, h1⟩
  have hden : 0 < sel.2.1.z - sel.1.z := by
    have := hzsel.1
    have := hzsel.2
    linarith [not_lt.mp hzsel.2]
  have hl0 : 0 ≤ lambda := by
    unfold lambda clipLambda
    apply div_nonneg _ (le_of_lt hden)
    linarith [hzsel.1]
  have hl1 : lambda ≤ 1 := by
    unfold lambda clipLambda
    rw [div_le_one hden]
    linarith [not_lt.mp hzsel.2]
  have hcsel : sel.2.2.1.r ≤ 255 ∧ sel.2.2.1.g ≤ 255 ∧ sel.2.2.1.b ≤ 255 ∧
      sel.2.2.2.r ≤ 255 ∧ sel.2.2.2.g ≤ 255 ∧ sel.2.2.2.b ≤ 255 := by
    rcases hone with ⟨h1, _⟩ | ⟨h1, _⟩
    · simp only [sel, if_pos h1]
      exact ⟨hc1.1, hc1.2.1, hc1.2.2, hc2.1, hc2.2.1, hc2.2.2⟩
    · simp only [sel, if_neg h1]
      exact ⟨hc2.1, hc2.2.1, hc2.2.2, hc1.1, hc1.2.1, hc1.2.2⟩
  refine ⟨rfl, hl0, hl1, ?_, ?_⟩
  · exact ⟨((blend_channel_bounds _ _ lambda hcsel.1 hcsel.2.2.2.1 hl0 hl1).1 : _),
      ((blend_channel_bounds _ _ lambda hcsel.2.1 hcsel.2.2.2.2.1 hl0 hl1).1 : _),
      ((blend_channel_bounds _ _ lambda hcsel.2.2.1 hcsel.2.2.2.2.2 hl0 hl1).1 : _)⟩
  · rcases hone with ⟨h1, h2⟩ | ⟨h1, h2⟩
    · simp only [edge_color]
      rw [if_neg (by tauto), if_neg (by tauto), if_pos h1]
      unfold lambda sel camera_start camera_end
      rw [if_pos h1]
    · simp only [edge_color]
      rw [if_neg (by tauto), if_neg (by tauto), if_neg h1]
      unfold lambda sel camera_start camera_end
      rw [if_neg h1]

/-- Witness for C4 at a concrete camera and segment straddling the near
plane. -/
theorem c4_clip_point_witness :
    (clipPoint (1 : ℚ)
        (world_to_camera ⟨⟨0, 0, 0⟩, 0, 0, 0, 1, 1,
          ⟨4, 4, fun _ _ => ⟨false, ⟨255, 255, 255⟩⟩⟩⟩ ⟨0, 1, 0, 1, 0, 1⟩ ⟨0, 0, 0⟩)
        (world_to_camera ⟨⟨0, 0, 0⟩, 0, 0, 0, 1, 1,
          ⟨4, 4, fun _ _ => ⟨false, ⟨255, 255, 255⟩⟩⟩⟩ ⟨0, 1, 0, 1, 0, 1⟩ ⟨0, 0, 4⟩)).z = 1 :=
  (c4_clip_point ⟨⟨0, 0, 0⟩, 0, 0, 0, 1, 1, ⟨4, 4, fun _ _ => ⟨false, ⟨255, 255, 255⟩⟩⟩⟩
    ⟨0, 1, 0, 1, 0, 1⟩ ⟨0, 0, 0⟩ ⟨0, 0, 4⟩ ⟨10, 20, 30⟩ ⟨200, 100, 50⟩
    (Or.inl (by norm_num [world_to_camera])) (by norm_num) (by norm_num)).1

/-- `rround` of a value at least `n - 1/2` (with the value nonnegative) is
at least `n`. -/
theorem rround_ge_of_le (q : ℚ) (n : ℤ) (h0 : 0 ≤ q) (h : (n : ℚ) ≤ q + 1/2) :
    n ≤ rround q := by
  unfold rround
  rw [if_pos h0]
  exact Int.le_floor.mpr (by linarith)

/-- `rround` of a value at most `-1/2` is negative. -/
theorem rround_neg_of_le (q : ℚ) (h : q ≤ -(1/2)) : rround q < 0 := by
  unfold rround
  rw [if_neg (by linarith)]
  have hc : ⌈q - 1/2⌉ ≤ -1 := Int.ceil_le.mpr (by push_cast; linarith)
  omega

/-- Arithmetic core of the cull-soundness proof: a normalized viewport
coordinate beyond `3/4` rounds to a screen coordinate at or past the right
edge. -/
theorem screen_out_high (q W : ℚ) (hW : 2 ≤ W) (hq : (3:ℚ)/4 < q) :
    0 ≤ (q + 1/2) * W ∧ W ≤ (q + 1/2) * W + 1/2 := by
  have hW0 : (0 : ℚ) ≤ W := by linarith
  have hqW := mul_le_mul_of_nonneg_right (le_of_lt hq) hW0
  constructor
  · nlinarith [hqW]
  · nlinarith [hqW]

/-- Arithmetic core of the cull-soundness proof: a normalized viewport
coordinate below `-3/4` rounds to a negative screen coordinate. -/
theorem screen_out_low (q W : ℚ) (hW : 2 ≤ W) (hq : q < -(3/4 : ℚ)) :
    (q + 1/2) * W ≤ -(1/2) := by
  have hW0 : (0 : ℚ) ≤ W := by linarith
  nlinarith [mul_le_mul_of_nonneg_right
    (show (1/4 : ℚ) ≤ -(q + 1/2) by linarith) hW0]

/-- A point beyond the frustum margin in `+y` has normalized vertical
viewport coordinate beyond `3/4`. -/
theorem proj_y_pos_bound (z t H W y : ℚ) (hz : 0 < z) (ht : 0 < t)
    (hH : 0 < H) (hW : 0 < W) (h : z * t * (3/2) * (H / W) < y) :
    (3:ℚ)/4 < y * W / (2 * z * t * H) := by
  rw [lt_div_iff (by positivity)]
  have h2 := mul_lt_mul_of_pos_right h hW
  rw [mul_assoc (z * t * (3/2)), div_mul_cancel₀ _ (ne_of_gt hW)] at h2
  nlinarith [h2]

/-- A point beyond the frustum margin in `-y` has normalized vertical
viewport coordinate below `-3/4`. -/
theorem proj_y_neg_bound (z t H W y : ℚ) (hz : 0 < z) (ht : 0 < t)
    (hH : 0 < H) (hW : 0 < W) (h : z * t * (3/2) * (H / W) < -y) :
    y * W / (2 * z * t * H) < -(3/4 : ℚ) := by
  rw [div_lt_iff (by positivity)]
  have h2 := mul_lt_mul_of_pos_right h hW
  rw [mul_assoc (z * t * (3/2)), div_mul_cancel₀ _ (ne_of_gt hW)] at h2
  nlinarith [h2]

/-- A camera-space point in front of the near plane but outside the
margin-expanded frustum of `is_in_frustum` projects outside the visible
framebuffer rectangle (for a framebuffer at least 2×2): the 1.5× margin
makes the frustum test strictly wider than the visible region. -/
theorem not_in_frustum_proj_out (cam : Camera) (p : Point3)
    (hw : 2 ≤ cam.screen.width) (hh : 2 ≤ cam.screen.height)
    (hd : 0 < cam.viewport_distance) (ht : 0 < cam.tanHalfFov)
    (hz : cam.viewport_distance ≤ p.z)
    (hfr : ¬ is_in_frustum cam p) :
    ¬ inScreenBounds cam.screen (camera_to_screen cam p) := by
  have hzpos : 0 < p.z := lt_of_lt_of_le hd hz
  have hWpos : (0 : ℚ) < (cam.screen.width : ℚ) := by
    have h2 : (0 : ℕ) < cam.screen.width := by omega
    exact_mod_cast h2
  have hW2 : (2 : ℚ) ≤ (cam.screen.width : ℚ) := by exact_mod_cast hw
  have hHpos : (0 : ℚ) < (cam.screen.height : ℚ) := by
    have h2 : (0 : ℕ) < cam.screen.height := by omega
    exact_mod_cast h2
  have hH2 : (2 : ℚ) ≤ (cam.screen.height : ℚ) := by exact_mod_cast hh
  have hviol : ¬(|p.x| ≤ p.z * cam.tanHalfFov * (3/2) ∧
      |p.y| ≤ p.z * cam.tanHalfFov * (3/2) *
        ((cam.screen.height : ℚ) / (cam.screen.width : ℚ))) := by
    intro hc
    exact hfr ⟨not_lt.mpr hz, hc⟩
  intro hin
  have hxcoord : (camera_to_screen cam p).x =
      rround ((p.x * cam.viewport_distance / p.z /
        (2 * cam.viewport_distance * cam.tanHalfFov) + 1/2) * (cam.screen.width : ℚ)) := rfl
  have hycoord : (camera_to_screen cam p).y =
      rround ((1 - (p.y * cam.viewport_distance / p.z /
        (((cam.screen.height : ℚ) / (cam.screen.width : ℚ)) *
          (2 * cam.viewport_distance * cam.tanHalfFov)) + 1/2)) *
        (cam.screen.height : ℚ)) := rfl
  obtain ⟨⟨hx0, hxw⟩, hy0, hyh⟩ := hin
  rw [hxcoord] at hx0 hxw
  rw [hycoord] at hy0 hyh
  have hzne : p.z ≠ 0 := ne_of_gt hzpos
  have htne : cam.tanHalfFov ≠ 0 := ne_of_gt ht
  have hdne : cam.viewport_distance ≠ 0 := ne_of_gt hd
  have hWne : (cam.screen.width : ℚ) ≠ 0 := ne_of_gt hWpos
  have hHne : (cam.screen.height : ℚ) ≠ 0 := ne_of_gt hHpos
  have h2zt : (0 : ℚ) < 2 * p.z * cam.tanHalfFov := by positivity
  have hu : p.x * cam.viewport_distance / p.z /
      (2 * cam.viewport_distance * cam.tanHalfFov) =
      p.x / (2 * p.z * cam.tanHalfFov) := by
    field_simp
    ring
  have hv : p.y * cam.viewport_distance / p.z /
      (((cam.screen.height : ℚ) / (cam.screen.width : ℚ)) *
        (2 * cam.viewport_distance * cam.tanHalfFov)) =
      p.y * (cam.screen.width : ℚ) /
        (2 * p.z * cam.tanHalfFov * (cam.screen.height : ℚ)) := by
    field_simp
    ring
  rw [hu] at hx0 hxw
  rw [hv] at hy0 hyh
  set u : ℚ := p.x / (2 * p.z * cam.tanHalfFov) with hudef
  set v : ℚ := p.y * (cam.screen.width : ℚ) /
    (2 * p.z * cam.tanHalfFov * (cam.screen.height : ℚ)) with hvdef
  rcases not_and_or.mp hviol with hxv | hyv
  · rcases lt_abs.mp (not_le.mp hxv) with hpos | hneg
    · have hu34 : (3 : ℚ)/4 < u := by
        rw [hudef, lt_div_iff h2zt]
        nlinarith
      have h3 := screen_out_high u (cam.screen.width : ℚ) hW2 hu34
      have hout : ((cam.screen.width : ℤ) : ℚ) ≤
          (u + 1/2) * (cam.screen.width : ℚ) + 1/2 := by
        push_cast
        linarith [h3.2]
      have := rround_ge_of_le _ (cam.screen.width : ℤ) h3.1 hout
      omega
    · have hu34 : u < -(3/4 : ℚ) := by
        rw [hudef, div_lt_iff h2zt]
        nlinarith
      have hout := screen_out_low u (cam.screen.width : ℚ) hW2 hu34
      have := rround_neg_of_le _ hout
      omega
  · rcases lt_abs.mp (not_le.mp hyv) with hpos | hneg
    · have hv34 : (3 : ℚ)/4 < v := by
        rw [hvdef]
        exact proj_y_pos_bound p.z cam.tanHalfFov (cam.screen.height : ℚ)
          (cam.screen.width : ℚ) p.y hzpos ht hHpos hWpos hpos
      have h3 := screen_out_low (-v) (cam.screen.height : ℚ) hH2 (by linarith)
      have hout : (1 - (v + 1/2)) * (cam.screen.height : ℚ) ≤ -(1/2) := by
        linarith [h3]
      have := rround_neg_of_le _ hout
      omega
    · have hv34 : v < -(3/4 : ℚ) := by
        rw [hvdef]
        exact proj_y_neg_bound p.z cam.tanHalfFov (cam.screen.height : ℚ)
          (cam.screen.width : ℚ) p.y hzpos ht hHpos hWpos hneg
      have h3 := screen_out_high (-v) (cam.screen.height : ℚ) hH2 (by linarith)
      have hnn : (0 : ℚ) ≤ (1 - (v + 1/2)) * (cam.screen.height : ℚ) := by
        linarith [h3.1]
      have hout : ((cam.screen.height : ℤ) : ℚ) ≤
          (1 - (v + 1/2)) * (cam.screen.height : ℚ) + 1/2 := by
        push_cast
        linarith [h3.2]
      have := rround_ge_of_le _ (cam.screen.height : ℤ) hnn hout
      omega

/-- C1: whenever `edge_color` skips a fully-unclipped segment via the
frustum-cull reject, neither endpoint projects (via `camera_to_screen`)
inside the visible framebuffer rectangle `[0,width) × [0,height)`: the
cull never discards a segment with a visibly-projecting endpoint (stated
for a framebuffer at least 2×2, a positive near-plane distance and a
positive `tan(fov/2)`). -/
theorem c1_frustum_cull_sound (cam : Camera) (tr : Trig) (ws we : Point3) (c1 c2 : Rgb)
    (hw : 2 ≤ cam.screen.width) (hh : 2 ≤ cam.screen.height)
    (hd : 0 < cam.viewport_distance) (ht : 0 < cam.tanHalfFov)
    (hzs : cam.viewport_distance ≤ (world_to_camera cam tr ws).z)
    (hze : cam.viewport_distance ≤ (world_to_camera cam tr we).z)
    (hcull : EdgeCullReject cam (world_to_camera cam tr ws) (world_to_camera cam tr we)) :
    edge_color cam tr ws we c1 c2 = cam ∧
    ¬ inScreenBounds cam.screen (camera_to_screen cam (world_to_camera cam tr ws)) ∧
    ¬ inScreenBounds cam.screen (camera_to_screen cam (world_to_camera cam tr we)) := by
  refine ⟨?_, not_in_frustum_proj_out cam _ hw hh hd ht hzs hcull.1.1,
    not_in_frustum_proj_out cam _ hw hh hd ht hze hcull.1.2⟩
  simp only [edge_color]
  rw [if_neg (fun hc => absurd hc.1 (not_lt.mpr hzs)),
    if_pos ⟨not_lt.mpr hzs, not_lt.mpr hze⟩, if_pos hcull]

/-- Witness for C1 at a concrete camera and culled segment. -/
theorem c1_frustum_cull_sound_witness :
    ¬ inScreenBounds (⟨4, 4, fun _ _ => ⟨false, ⟨255, 255, 255⟩⟩⟩ : Screen)
      (camera_to_screen
        ⟨⟨0, 0, 0⟩, 0, 0, 0, 1, 1, ⟨4, 4, fun _ _ => ⟨false, ⟨255, 255, 255⟩⟩⟩⟩
        (world_to_camera
          ⟨⟨0, 0, 0⟩, 0, 0, 0, 1, 1, ⟨4, 4, fun _ _ => ⟨false, ⟨255, 255, 255⟩⟩⟩⟩
          ⟨0, 1, 0, 1, 0, 1⟩ ⟨2, -10, 1⟩)) :=
  (c1_frustum_cull_sound
    ⟨⟨0, 0, 0⟩, 0, 0, 0, 1, 1, ⟨4, 4, fun _ _ => ⟨false, ⟨255, 255, 255⟩⟩⟩⟩
    ⟨0, 1, 0, 1, 0, 1⟩ ⟨2, -10, 1⟩ ⟨2, 16, 10⟩ ⟨0, 0, 0⟩ ⟨9, 9, 9⟩
    (by norm_num) (by norm_num) (by norm_num) (by norm_num)
    (by norm_num [world_to_camera]) (by norm_num [world_to_camera])
    (by norm_num [EdgeCullReject, is_in_frustum, world_to_camera])).2.1

/-- Swap the roles of x and y in a Bresenham state and negate the error
term. -/
def bresMirror (st : BresState) : BresState := ⟨st.y, st.x, -st.err, st.step⟩

theorem bresMirror_bresMirror (st : BresState) : bresMirror (bresMirror st) = st := by
  cases st
  simp [bresMirror]

/-- `bresAdvance` with the two axes swapped is conjugate to `bresAdvance`
under `bresMirror`. -/
theorem bresAdvance_mirror (a b sx sy : ℤ) (st : BresState) :
    bresAdvance b (-a) sy sx (bresMirror st) =
      bresMirror (bresAdvance a (-b) sx sy st) := by
  simp only [bresAdvance, bresMirror, BresState.mk.injEq]
  refine ⟨?_, ?_, ?_, trivial⟩
  · split_ifs <;> omega
  · split_ifs <;> omega
  · split_ifs <;> omega

theorem bres_iterate_mirror (a b sx sy : ℤ) (st : BresState) :
    ∀ k : ℕ, (bresAdvance a (-b) sx sy)^[k] st =
      bresMirror ((bresAdvance b (-a) sy sx)^[k] (bresMirror st)) := by
  intro k
  induction k generalizing st with
  | zero => simp [bresMirror_bresMirror]
  | succ n ih =>
    rw [Function.iterate_succ_apply, Function.iterate_succ_apply, ih,
      bresAdvance_mirror]

/-- Trajectory of the Bresenham iteration when the x-extent dominates
(`b ≤ a`): after `k ≤ a` iterations the x-coordinate has advanced exactly
`k` steps and the y-coordinate `q` steps, where `q` is pinned by the
bracket `2*a*q ≤ 2*k*b + a < 2*a*(q+1)`; the error accumulator is
determined by `k` and `q`. -/
theorem bres_iter_x (a b sx sy x0 y0 : ℤ) (ha : 0 < a) (hb : 0 ≤ b) (hba : b ≤ a) :
    ∀ k : ℕ, (k : ℤ) ≤ a →
      ∃ q : ℤ, 0 ≤ q ∧ q ≤ b ∧ q ≤ (k : ℤ) ∧
        2 * a * q ≤ 2 * (k : ℤ) * b + a ∧ 2 * (k : ℤ) * b + a < 2 * a * (q + 1) ∧
        (bresAdvance a (-b) sx sy)^[k] ⟨x0, y0, a - b, 0⟩ =
          ⟨x0 + sx * (k : ℤ), y0 + sy * q, a - b + q * a - (k : ℤ) * b, k⟩ := by
  intro k
  induction k with
  | zero =>
    intro _
    refine ⟨0, le_refl 0, hb, by norm_num, by push_cast; omega, by push_cast; omega, ?_⟩
    simp only [Function.iterate_zero, id_eq, Nat.cast_zero, BresState.mk.injEq]
    refine ⟨by ring, by ring, by ring, trivial⟩
  | succ k ih =>
    intro hk1
    have hk : (k : ℤ) ≤ a := by push_cast at hk1 ⊢; omega
    obtain ⟨q, hq0, hqb, hqk, hbr1, hbr2, heq⟩ := ih hk
    have hkk1 : ((k + 1 : ℕ) : ℤ) = (k : ℤ) + 1 := by push_cast; ring
    have hXfire : -b ≤ 2 * (a - b + q * a - (k : ℤ) * b) := by nlinarith
    rw [Function.iterate_succ_apply', heq]
    by_cases hY : 2 * (a - b + q * a - (k : ℤ) * b) ≤ a
    · refine ⟨q + 1, by omega, ?_, by omega, ?_, ?_, ?_⟩
      · -- q + 1 ≤ b
        by_contra hqb1
        push_neg at hqb1
        have hqge : b ≤ q := by omega
        have hkb : ((k : ℤ) + 1) * b ≤ a * b :=
          mul_le_mul_of_nonneg_right (by push_cast at hk1; omega) hb
        nlinarith
      · nlinarith
      · nlinarith [mul_le_mul_of_nonneg_right hba (by norm_num : (0:ℤ) ≤ 2)]
      · simp only [bresAdvance, if_pos hXfire, if_pos hY, BresState.mk.injEq]
        refine ⟨by rw [hkk1]; ring, by ring, by rw [hkk1]; ring, trivial⟩
    · push_neg at hY
      refine ⟨q, hq0, hqb, by omega, by nlinarith, by nlinarith, ?_⟩
      simp only [bresAdvance, if_pos hXfire,
        if_neg (not_le.mpr hY), BresState.mk.injEq]
      refine ⟨by rw [hkk1]; ring, by ring, by rw [hkk1]; ring, trivial⟩

theorem abs_sign_mul (s d : ℤ) (hs : s = 1 ∨ s = -1) (hd : 0 ≤ d) : |s * d| = d := by
  rcases hs with rfl | rfl
  · rw [one_mul, abs_of_nonneg hd]
  · rw [neg_one_mul, abs_neg, abs_of_nonneg hd]

/-- The minor coordinate of the Bresenham iteration never lags more than
the dominant one: from the upper bracket bound, `q ≥ b - a + k`. -/
theorem bres_q_lower (a b q k : ℤ) (ha : 0 < a) (hk : k ≤ a) (hba : b ≤ a)
    (hbr2 : 2 * k * b + a < 2 * a * (q + 1)) : b - a + k ≤ q := by
  by_contra hcon
  push_neg at hcon
  have h1 : q + 1 ≤ b - a + k := by omega
  have h2 : 2 * a * (q + 1) ≤ 2 * a * (b - a + k) :=
    mul_le_mul_of_nonneg_left h1 (by omega)
  nlinarith [mul_nonneg (sub_nonneg.mpr hk) (sub_nonneg.mpr hba)]

/-- Trajectory of the Bresenham iteration, both orientations: after
`k ≤ max a b` iterations the point has advanced `p` x-steps and `q`
y-steps with `max p q = k`, and the Chebyshev distance to the target
offsets `(a, b)` has dropped to `max a b - k`. -/
theorem bres_iter_cheb (a b sx sy x0 y0 : ℤ) (ha : 0 ≤ a) (hb : 0 ≤ b) :
    ∀ k : ℕ, (k : ℤ) ≤ max a b →
      ∃ p q : ℤ, 0 ≤ p ∧ p ≤ a ∧ 0 ≤ q ∧ q ≤ b ∧ max p q = (k : ℤ) ∧
        max (a - p) (b - q) = max a b - (k : ℤ) ∧
        ((bresAdvance a (-b) sx sy)^[k] ⟨x0, y0, a - b, 0⟩).x = x0 + sx * p ∧
        ((bresAdvance a (-b) sx sy)^[k] ⟨x0, y0, a - b, 0⟩).y = y0 + sy * q ∧
        ((bresAdvance a (-b) sx sy)^[k] ⟨x0, y0, a - b, 0⟩).step = k := by
  intro k hk
  by_cases hba : b ≤ a
  · have hmax : max a b = a := max_eq_left hba
    rw [hmax] at hk
    rcases eq_or_lt_of_le ha with haz | hapos
    · have ha0 : a = 0 := haz.symm
      have hb0 : b = 0 := by omega
      have hk0 : k = 0 := by omega
      subst hk0
      refine ⟨0, 0, le_refl 0, by omega, le_refl 0, by omega, by simp, by simp [hmax], ?_, ?_, rfl⟩
      · simp
      · simp
    · obtain ⟨q, hq0, hqb, hqk, hbr1, hbr2, heq⟩ :=
        bres_iter_x a b sx sy x0 y0 hapos hb hba k hk
      have hql : b - a + (k : ℤ) ≤ q := bres_q_lower a b q (k : ℤ) hapos hk hba hbr2
      refine ⟨(k : ℤ), q, by omega, hk, hq0, hqb, max_eq_left hqk, ?_, ?_, ?_, ?_⟩
      · rw [hmax, max_eq_left (by omega : b - q ≤ a - (k : ℤ))]
      · rw [heq]
      · rw [heq]
      · rw [heq]
  · push_neg at hba
    have hmax : max a b = b := max_eq_right (le_of_lt hba)
    rw [hmax] at hk
    obtain ⟨p, hp0, hpa, hpk, hbr1, hbr2, heq⟩ :=
      bres_iter_x b a sy sx y0 x0 (by omega) ha (le_of_lt hba) k hk
    have hpl : a - b + (k : ℤ) ≤ p := bres_q_lower b a p (k : ℤ) (by omega) hk (le_of_lt hba) hbr2
    have hm := bres_iterate_mirror a b sx sy ⟨x0, y0, a - b, 0⟩ k
    have hinit : bresMirror ⟨x0, y0, a - b, 0⟩ = ⟨y0, x0, b - a, 0⟩ := by
      simp only [bresMirror, BresState.mk.injEq]
      refine ⟨trivial, trivial, by ring, trivial⟩
    rw [hinit, heq] at hm
    refine ⟨p, (k : ℤ), hp0, hpa, by omega, hk, max_eq_right hpk, ?_, ?_, ?_, ?_⟩
    · rw [hmax, max_eq_right (by omega : a - p ≤ b - (k : ℤ))]
    · rw [hm]
      rfl
    · rw [hm]
      rfl
    · rw [hm]
      rfl

/-- The step direction and delta computed by `line_color` recover the
target coordinate from the start coordinate. -/
theorem bres_target (x0 ex : ℤ) :
    ex = x0 + (if x0 < ex then (1 : ℤ) else -1) * |ex - x0| := by
  rcases abs_cases (ex - x0) with ⟨h1, h2⟩ | ⟨h1, h2⟩ <;> split_ifs <;> omega

/-- The state of the Bresenham loop of `line_color` / `line_color_clipped`
after `k` iterations, started from `start` toward `e` (deltas, step signs
and initial error exactly as both functions compute them). -/
def bresIter (start e : Point2) (k : ℕ) : BresState :=
  (bresAdvance (|e.x - start.x|) (-(|e.y - start.y|))
    (if start.x < e.x then 1 else -1) (if start.y < e.y then 1 else -1))^[k]
    ⟨start.x, start.y, |e.x - start.x| - |e.y - start.y|, 0⟩

/-- Chebyshev distance from a loop state to the target point. -/
def chebDist (e : Point2) (st : BresState) : ℤ := max |e.x - st.x| |e.y - st.y|

/-- If the loop state reaches the end point after `n` advances, then
`lineColorGo` returns `some` for any fuel exceeding `n`. -/
theorem lineColorGo_isSome (e : Point2) (c1 c2 : Rgb) (dx dy sx sy : ℤ) (total : ℚ) :
    ∀ (n : ℕ) (st : BresState) (scr : Screen),
      ((bresAdvance dx dy sx sy)^[n] st).x = e.x →
      ((bresAdvance dx dy sx sy)^[n] st).y = e.y →
      ∀ fuel : ℕ, n < fuel →
        (lineColorGo e c1 c2 dx dy sx sy total fuel scr st).isSome = true := by
  intro n
  induction n with
  | zero =>
    intro st scr hx hy fuel hf
    obtain ⟨f, rfl⟩ : ∃ f, fuel = f + 1 := ⟨fuel - 1, by omega⟩
    simp only [Function.iterate_zero, id_eq] at hx hy
    unfold lineColorGo
    rw [if_pos ⟨hx, hy⟩]
    rfl
  | succ n ih =>
    intro st scr hx hy fuel hf
    obtain ⟨f, rfl⟩ : ∃ f, fuel = f + 1 := ⟨fuel - 1, by omega⟩
    unfold lineColorGo
    simp only
    by_cases hend : st.x = e.x ∧ st.y = e.y
    · rw [if_pos hend]
      rfl
    · rw [if_neg hend]
      exact ih _ _ (by rw [← Function.iterate_succ_apply]; exact hx)
        (by rw [← Function.iterate_succ_apply]; exact hy) f (by omega)

/-- If the loop state reaches the end point after `n` advances, then
`lineColorClippedGo` returns `some` for any fuel exceeding `n`. -/
theorem lineColorClippedGo_isSome (e : Point2) (c1 c2 : Rgb) (dx dy sx sy : ℤ)
    (total : ℚ) (xmin xmax ymin ymax : ℤ) :
    ∀ (n : ℕ) (st : BresState) (scr : Screen),
      ((bresAdvance dx dy sx sy)^[n] st).x = e.x →
      ((bresAdvance dx dy sx sy)^[n] st).y = e.y →
      ∀ fuel : ℕ, n < fuel →
        (lineColorClippedGo e c1 c2 dx dy sx sy total xmin xmax ymin ymax
          fuel scr st).isSome = true := by
  intro n
  induction n with
  | zero =>
    intro st scr hx hy fuel hf
    obtain ⟨f, rfl⟩ : ∃ f, fuel = f + 1 := ⟨fuel - 1, by omega⟩
    simp only [Function.iterate_zero, id_eq] at hx hy
    unfold lineColorClippedGo
    rw [if_pos ⟨hx, hy⟩]
    rfl
  | succ n ih =>
    intro st scr hx hy fuel hf
    obtain ⟨f, rfl⟩ : ∃ f, fuel = f + 1 := ⟨fuel - 1, by omega⟩
    unfold lineColorClippedGo
    simp only
    by_cases hend : st.x = e.x ∧ st.y = e.y
    · rw [if_pos hend]
      rfl
    · rw [if_neg hend]
      exact ih _ _ (by rw [← Function.iterate_succ_apply]; exact hx)
        (by rw [← Function.iterate_succ_apply]; exact hy) f (by omega)

/-- C10: the Bresenham loops of `line_color` and `line_color_clipped`
terminate: the Chebyshev distance from the current point to the end point
is exactly `max |Δx| |Δy| - k` after `k` iterations, so each iteration
strictly decreases it; the loop state first reaches the end point after
exactly `max |Δx| |Δy|` advances, and both loops return `some` (no fuel
exhaustion) with fuel `max |Δx| |Δy| + 1` — the fuel `line_color` and
`line_color_clipped` pass. -/
theorem c10_bresenham_termination (start e : Point2) :
    (∀ k : ℕ, (k : ℤ) ≤ max |e.x - start.x| |e.y - start.y| →
      chebDist e (bresIter start e k) = max |e.x - start.x| |e.y - start.y| - (k : ℤ)) ∧
    (∀ k : ℕ, (k : ℤ) < max |e.x - start.x| |e.y - start.y| →
      chebDist e (bresIter start e (k + 1)) < chebDist e (bresIter start e k)) ∧
    ((bresIter start e (max |e.x - start.x| |e.y - start.y|).toNat).x = e.x ∧
      (bresIter start e (max |e.x - start.x| |e.y - start.y|).toNat).y = e.y) ∧
    (∀ k : ℕ, (k : ℤ) < max |e.x - start.x| |e.y - start.y| →
      ¬((bresIter start e k).x = e.x ∧ (bresIter start e k).y = e.y)) ∧
    (∀ (scr : Screen) (c1 c2 : Rgb) (total : ℚ),
      (lineColorGo e c1 c2 (|e.x - start.x|) (-(|e.y - start.y|))
        (if start.x < e.x then 1 else -1) (if start.y < e.y then 1 else -1) total
        ((max |e.x - start.x| |e.y - start.y|).toNat + 1) scr
        ⟨start.x, start.y, |e.x - start.x| - |e.y - start.y|, 0⟩).isSome = true) ∧
    (∀ (scr : Screen) (c1 c2 : Rgb) (total : ℚ) (xmin xmax ymin ymax : ℤ),
      (lineColorClippedGo e c1 c2 (|e.x - start.x|) (-(|e.y - start.y|))
        (if start.x < e.x then 1 else -1) (if start.y < e.y then 1 else -1) total
        xmin xmax ymin ymax
        ((max |e.x - start.x| |e.y - start.y|).toNat + 1) scr
        ⟨start.x, start.y, |e.x - start.x| - |e.y - start.y|, 0⟩).isSome = true) := by
  set a := |e.x - start.x| with hadef
  set b := |e.y - start.y| with hbdef
  set sx : ℤ := if start.x < e.x then 1 else -1 with hsxdef
  set sy : ℤ := if start.y < e.y then 1 else -1 with hsydef
  have hdx : 0 ≤ a := abs_nonneg _
  have hdy : 0 ≤ b := abs_nonneg _
  have hsx : sx = 1 ∨ sx = -1 := by rw [hsxdef]; split_ifs <;> simp
  have hsy : sy = 1 ∨ sy = -1 := by rw [hsydef]; split_ifs <;> simp
  have hex : e.x = start.x + sx * a := by rw [hsxdef, hadef]; exact bres_target start.x e.x
  have hey : e.y = start.y + sy * b := by rw [hsydef, hbdef]; exact bres_target start.y e.y
  have hiter : ∀ k : ℕ, bresIter start e k =
      (bresAdvance a (-b) sx sy)^[k] ⟨start.x, start.y, a - b, 0⟩ := fun _ => rfl
  have key := bres_iter_cheb a b sx sy start.x start.y hdx hdy
  have hc1 : ∀ k : ℕ, (k : ℤ) ≤ max a b →
      chebDist e (bresIter start e k) = max a b - (k : ℤ) := by
    intro k hk
    obtain ⟨p, q, hp0, hpa, hq0, hqb, _, hcheb, hx, hy, _⟩ := key k hk
    rw [hiter]
    unfold chebDist
    rw [show e.x - ((bresAdvance a (-b) sx sy)^[k]
        ⟨start.x, start.y, a - b, 0⟩).x = sx * (a - p) by rw [hx, hex]; ring]
    rw [show e.y - ((bresAdvance a (-b) sx sy)^[k]
        ⟨start.x, start.y, a - b, 0⟩).y = sy * (b - q) by rw [hy, hey]; ring]
    rw [abs_sign_mul sx _ hsx (by omega), abs_sign_mul sy _ hsy (by omega), hcheb]
  have hNle : (((max a b).toNat : ℕ) : ℤ) ≤ max a b := by omega
  have hend : (bresIter start e (max a b).toNat).x = e.x ∧
      (bresIter start e (max a b).toNat).y = e.y := by
    obtain ⟨p, q, hp0, hpa, hq0, hqb, _, hcheb, hx, hy, _⟩ := key (max a b).toNat hNle
    have hN : (((max a b).toNat : ℕ) : ℤ) = max a b := by omega
    rw [hN] at hcheb
    have hle1 : a - p ≤ max (a - p) (b - q) := le_max_left _ _
    have hle2 : b - q ≤ max (a - p) (b - q) := le_max_right _ _
    have hpq : p = a ∧ q = b := by omega
    constructor
    · rw [hiter, hx, hpq.1, hex]
    · rw [hiter, hy, hpq.2, hey]
  have hnotend : ∀ k : ℕ, (k : ℤ) < max a b →
      ¬((bresIter start e k).x = e.x ∧ (bresIter start e k).y = e.y) := by
    intro k hk hcon
    obtain ⟨p, q, hp0, hpa, hq0, hqb, _, hcheb, hx, hy, _⟩ := key k (le_of_lt hk)
    obtain ⟨hxe, hye⟩ := hcon
    rw [hiter, hx, hex] at hxe
    rw [hiter, hy, hey] at hye
    have hpa2 : sx * p = sx * a := by linarith
    have hqb2 : sy * q = sy * b := by linarith
    have hp : p = a := by rcases hsx with h | h <;> rw [h] at hpa2 <;> omega
    have hq : q = b := by rcases hsy with h | h <;> rw [h] at hqb2 <;> omega
    rw [hp, hq] at hcheb
    simp only [sub_self, max_self] at hcheb
    omega
  refine ⟨hc1, ?_, hend, hnotend, ?_, ?_⟩
  · intro k hk
    have h1 := hc1 k (le_of_lt hk)
    have h2 := hc1 (k + 1) (by push_cast; omega)
    rw [h1, h2]
    push_cast
    omega
  · intro scr c1 c2 total
    exact lineColorGo_isSome e c1 c2 a (-b) sx sy total (max a b).toNat _ scr
      ((hiter _) ▸ hend.1) ((hiter _) ▸ hend.2) _ (by omega)
  · intro scr c1 c2 total xmin xmax ymin ymax
    exact lineColorClippedGo_isSome e c1 c2 a (-b) sx sy total xmin xmax ymin ymax
      (max a b).toNat _ scr
      ((hiter _) ▸ hend.1) ((hiter _) ▸ hend.2) _ (by omega)

/-- Witness for C10 at a concrete segment. -/
theorem c10_bresenham_termination_witness :
    chebDist ⟨3, 2⟩ (bresIter ⟨0, 0⟩ ⟨3, 2⟩ 1) = 2 := by
  have h := (c10_bresenham_termination ⟨0, 0⟩ ⟨3, 2⟩).1 1 (by norm_num)
  norm_num at h
  exact h

/-- The screen after the first `m` writes of the `line_color` loop started
at state `st`: write `k` plots the point of the `k`-th loop state with the
step-`k` interpolated color. -/
def lineWriteSeq (c1 c2 : Rgb) (dx dy sx sy : ℤ) (total : ℚ) (st : BresState)
    (scr : Screen) : ℕ → Screen
  | 0 => scr
  | m + 1 =>
    let stm := (bresAdvance dx dy sx sy)^[m] st
    write_color (lineWriteSeq c1 c2 dx dy sx sy total st scr m) true ⟨stm.x, stm.y⟩
      (blendRgb c1 c2 ((stm.step : ℚ) / total))

theorem lineWriteSeq_succ (c1 c2 : Rgb) (dx dy sx sy : ℤ) (total : ℚ)
    (st : BresState) (scr : Screen) (m : ℕ) :
    lineWriteSeq c1 c2 dx dy sx sy total st scr (m + 1) =
      write_color (lineWriteSeq c1 c2 dx dy sx sy total st scr m) true
        ⟨((bresAdvance dx dy sx sy)^[m] st).x, ((bresAdvance dx dy sx sy)^[m] st).y⟩
        (blendRgb c1 c2 ((((bresAdvance dx dy sx sy)^[m] st).step : ℚ) / total)) := rfl

theorem lineWriteSeq_one (c1 c2 : Rgb) (dx dy sx sy : ℤ) (total : ℚ)
    (st : BresState) (scr : Screen) :
    lineWriteSeq c1 c2 dx dy sx sy total st scr 1 =
      write_color scr true ⟨st.x, st.y⟩ (blendRgb c1 c2 ((st.step : ℚ) / total)) := rfl

/-- Shifting the write sequence by one step. -/
theorem lineWriteSeq_shift (c1 c2 : Rgb) (dx dy sx sy : ℤ) (total : ℚ)
    (st : BresState) (scr : Screen) :
    ∀ m : ℕ, lineWriteSeq c1 c2 dx dy sx sy total st scr (m + 1) =
      lineWriteSeq c1 c2 dx dy sx sy total (bresAdvance dx dy sx sy st)
        (write_color scr true ⟨st.x, st.y⟩ (blendRgb c1 c2 ((st.step : ℚ) / total))) m := by
  intro m
  induction m with
  | zero => rfl
  | succ m ih =>
    rw [lineWriteSeq_succ, ih, lineWriteSeq_succ, Function.iterate_succ_apply]

/-- Until the end point is first reached, `lineColorGo` returns exactly the
accumulated write sequence. -/
theorem lineColorGo_eq_writeSeq (e : Point2) (c1 c2 : Rgb) (dx dy sx sy : ℤ)
    (total : ℚ) :
    ∀ (n : ℕ) (st : BresState) (scr : Screen),
      (∀ m : ℕ, m < n → ¬(((bresAdvance dx dy sx sy)^[m] st).x = e.x ∧
        ((bresAdvance dx dy sx sy)^[m] st).y = e.y)) →
      ((bresAdvance dx dy sx sy)^[n] st).x = e.x →
      ((bresAdvance dx dy sx sy)^[n] st).y = e.y →
      ∀ fuel : ℕ, n < fuel →
        lineColorGo e c1 c2 dx dy sx sy total fuel scr st =
          some (lineWriteSeq c1 c2 dx dy sx sy total st scr (n + 1)) := by
  intro n
  induction n with
  | zero =>
    intro st scr _ hx hy fuel hf
    obtain ⟨f, rfl⟩ : ∃ f, fuel = f + 1 := ⟨fuel - 1, by omega⟩
    simp only [Function.iterate_zero, id_eq] at hx hy
    unfold lineColorGo
    rw [if_pos ⟨hx, hy⟩]
    rfl
  | succ n ih =>
    intro st scr hnot hx hy fuel hf
    obtain ⟨f, rfl⟩ : ∃ f, fuel = f + 1 := ⟨fuel - 1, by omega⟩
    unfold lineColorGo
    simp only
    rw [if_neg (by simpa using hnot 0 (by omega))]
    rw [lineWriteSeq_shift]
    exact ih _ _
      (fun m hm => by rw [← Function.iterate_succ_apply]; exact hnot (m + 1) (by omega))
      (by rw [← Function.iterate_succ_apply]; exact hx)
      (by rw [← Function.iterate_succ_apply]; exact hy) f (by omega)

theorem lineWriteSeq_width (c1 c2 : Rgb) (dx dy sx sy : ℤ) (total : ℚ)
    (st : BresState) (scr : Screen) :
    ∀ m : ℕ, (lineWriteSeq c1 c2 dx dy sx sy total st scr m).width = scr.width := by
  intro m
  induction m with
  | zero => rfl
  | succ m ih => rw [lineWriteSeq_succ, write_color_width, ih]

theorem lineWriteSeq_height (c1 c2 : Rgb) (dx dy sx sy : ℤ) (total : ℚ)
    (st : BresState) (scr : Screen) :
    ∀ m : ℕ, (lineWriteSeq c1 c2 dx dy sx sy total st scr m).height = scr.height := by
  intro m
  induction m with
  | zero => rfl
  | succ m ih => rw [lineWriteSeq_succ, write_color_height, ih]

/-- A cell not visited between writes `j` and `m` keeps its value from
write `j`. -/
theorem lineWriteSeq_untouched (c1 c2 : Rgb) (dx dy sx sy : ℤ) (total : ℚ)
    (st : BresState) (scr : Screen) (x y : ℤ) (j : ℕ) :
    ∀ m : ℕ, j ≤ m →
      (∀ k : ℕ, j ≤ k → k < m →
        ¬(((bresAdvance dx dy sx sy)^[k] st).x = x ∧
          ((bresAdvance dx dy sx sy)^[k] st).y = y)) →
      (lineWriteSeq c1 c2 dx dy sx sy total st scr m).content y x =
        (lineWriteSeq c1 c2 dx dy sx sy total st scr j).content y x := by
  intro m
  induction m with
  | zero =>
    intro hj _
    have hj0 : j = 0 := by omega
    rw [hj0]
  | succ m ih =>
    intro hj hk
    rcases eq_or_lt_of_le hj with heq | hlt
    · rw [heq]
    · have hjm : j ≤ m := by omega
      rw [lineWriteSeq_succ]
      rw [write_color_content_ne _ _ _ _ x y ?_]
      · exact ih hjm (fun k h1 h2 => hk k h1 (by omega))
      · intro hcon
        exact hk m hjm (by omega) ⟨hcon.2.symm, hcon.1.symm⟩

/-- `write_color` at an in-bounds point sets that cell. -/
theorem write_color_content_self (s : Screen) (val : Bool) (p : Point2) (color : Rgb)
    (h : inScreenBounds s p) :
    (write_color s val p color).content p.y p.x = ⟨val, color⟩ := by
  unfold write_color
  rw [if_pos h]
  simp

/-- The step-interpolated color at parameter 0 is exactly the start color
(for in-range channels). -/
theorem blendRgb_zero (c1 c2 : Rgb) (h1 : c1.r ≤ 255) (h2 : c1.g ≤ 255)
    (h3 : c1.b ≤ 255) (t : ℚ) (ht : t = 0) : blendRgb c1 c2 t = c1 := by
  subst ht
  have hch : ∀ n m : ℕ, n ≤ 255 →
      rustCastU8 ((1 - 0) * (n : ℚ) + 0 * (m : ℚ)) = n := by
    intro n m hn
    unfold rustCastU8
    rw [show (1 - (0:ℚ)) * (n : ℚ) + 0 * (m : ℚ) = ((n : ℕ) : ℚ) by ring,
      Int.floor_natCast, Int.toNat_natCast]
    omega
  unfold blendRgb
  cases c1
  simp only [Rgb.mk.injEq]
  exact ⟨hch _ _ h1, hch _ _ h2, hch _ _ h3⟩

/-- The step-interpolated color at parameter 1 is exactly the end color
(for in-range channels). -/
theorem blendRgb_one (c1 c2 : Rgb) (h1 : c2.r ≤ 255) (h2 : c2.g ≤ 255)
    (h3 : c2.b ≤ 255) (t : ℚ) (ht : t = 1) : blendRgb c1 c2 t = c2 := by
  subst ht
  have hch : ∀ n m : ℕ, m ≤ 255 →
      rustCastU8 ((1 - 1) * (n : ℚ) + 1 * (m : ℚ)) = m := by
    intro n m hm
    unfold rustCastU8
    rw [show (1 - (1:ℚ)) * (n : ℚ) + 1 * (m : ℚ) = ((m : ℕ) : ℚ) by ring,
      Int.floor_natCast, Int.toNat_natCast]
    omega
  unfold blendRgb
  cases c2
  simp only [Rgb.mk.injEq]
  exact ⟨hch _ _ h1, hch _ _ h2, hch _ _ h3⟩

/-- The loop state first reaches the end point after exactly
`max |Δx| |Δy|` advances, records that step count, and never revisits the
start point on the way. -/
theorem bresIter_reach (start e : Point2) :
    ((bresIter start e (max |e.x - start.x| |e.y - start.y|).toNat).x = e.x ∧
      (bresIter start e (max |e.x - start.x| |e.y - start.y|).toNat).y = e.y ∧
      (bresIter start e (max |e.x - start.x| |e.y - start.y|).toNat).step =
        (max |e.x - start.x| |e.y - start.y|).toNat) ∧
    (∀ k : ℕ, (k : ℤ) < max |e.x - start.x| |e.y - start.y| →
      ¬((bresIter start e k).x = e.x ∧ (bresIter start e k).y = e.y)) ∧
    (∀ k : ℕ, 1 ≤ k → (k : ℤ) ≤ max |e.x - start.x| |e.y - start.y| →
      ¬((bresIter start e k).x = start.x ∧ (bresIter start e k).y = start.y)) := by
  set a := |e.x - start.x| with hadef
  set b := |e.y - start.y| with hbdef
  set sx : ℤ := if start.x < e.x then 1 else -1 with hsxdef
  set sy : ℤ := if start.y < e.y then 1 else -1 with hsydef
  have hdx : 0 ≤ a := abs_nonneg _
  have hdy : 0 ≤ b := abs_nonneg _
  have hsx : sx = 1 ∨ sx = -1 := by rw [hsxdef]; split_ifs <;> simp
  have hsy : sy = 1 ∨ sy = -1 := by rw [hsydef]; split_ifs <;> simp
  have hex : e.x = start.x + sx * a := by rw [hsxdef, hadef]; exact bres_target start.x e.x
  have hey : e.y = start.y + sy * b := by rw [hsydef, hbdef]; exact bres_target start.y e.y
  have hiter : ∀ k : ℕ, bresIter start e k =
      (bresAdvance a (-b) sx sy)^[k] ⟨start.x, start.y, a - b, 0⟩ := fun _ => rfl
  have key := bres_iter_cheb a b sx sy start.x start.y hdx hdy
  have hNle : (((max a b).toNat : ℕ) : ℤ) ≤ max a b := by omega
  refine ⟨?_, ?_, ?_⟩
  · obtain ⟨p, q, hp0, hpa, hq0, hqb, _, hcheb, hx, hy, hstep⟩ := key (max a b).toNat hNle
    have hN : (((max a b).toNat : ℕ) : ℤ) = max a b := by omega
    rw [hN] at hcheb
    have hle1 : a - p ≤ max (a - p) (b - q) := le_max_left _ _
    have hle2 : b - q ≤ max (a - p) (b - q) := le_max_right _ _
    have hpq : p = a ∧ q = b := by omega
    refine ⟨?_, ?_, ?_⟩
    · rw [hiter, hx, hpq.1, hex]
    · rw [hiter, hy, hpq.2, hey]
    · rw [hiter, hstep]
  · intro k hk hcon
    obtain ⟨p, q, hp0, hpa, hq0, hqb, _, hcheb, hx, hy, _⟩ := key k (le_of_lt hk)
    obtain ⟨hxe, hye⟩ := hcon
    rw [hiter, hx, hex] at hxe
    rw [hiter, hy, hey] at hye
    have hpa2 : sx * p = sx * a := by linarith
    have hqb2 : sy * q = sy * b := by linarith
    have hp : p = a := by rcases hsx with h | h <;> rw [h] at hpa2 <;> omega
    have hq : q = b := by rcases hsy with h | h <;> rw [h] at hqb2 <;> omega
    rw [hp, hq] at hcheb
    simp only [sub_self, max_self] at hcheb
    omega
  · intro k hk1 hk hcon
    obtain ⟨p, q, hp0, hpa, hq0, hqb, hmaxpq, _, hx, hy, _⟩ := key k hk
    obtain ⟨hxe, hye⟩ := hcon
    rw [hiter, hx] at hxe
    rw [hiter, hy] at hye
    have hp0x : sx * p = 0 := by linarith
    have hq0y : sy * q = 0 := by linarith
    have hp : p = 0 := by rcases hsx with h | h <;> rw [h] at hp0x <;> omega
    have hq : q = 0 := by rcases hsy with h | h <;> rw [h] at hq0y <;> omega
    rw [hp, hq, max_self] at hmaxpq
    omega

/-- C2 (amended): for in-bounds endpoints, `line_color` writes both
endpoint samples; the start sample gets exactly `start_color` (interpolation
parameter 0), while the end sample gets the color interpolated at parameter
`max |Δx| |Δy| / max (|Δx| + |Δy|) 1` — which is `end_color` exactly when
the segment is axis-aligned and non-degenerate, but not in general, since
the loop takes `max |Δx| |Δy|` steps while the divisor is `|Δx| + |Δy|`. -/
theorem c2_line_color_endpoints (s : Screen) (start e : Point2) (c1 c2 : Rgb)
    (hc1 : c1.r ≤ 255 ∧ c1.g ≤ 255 ∧ c1.b ≤ 255)
    (hc2 : c2.r ≤ 255 ∧ c2.g ≤ 255 ∧ c2.b ≤ 255)
    (hs : inScreenBounds s start) (he : inScreenBounds s e) :
    (line_color s start e c1 c2).content start.y start.x = ⟨true, c1⟩ ∧
    (line_color s start e c1 c2).content e.y e.x = ⟨true, blendRgb c1 c2
      ((((max |e.x - start.x| |e.y - start.y|).toNat : ℕ) : ℚ) /
        ((max (|e.x - start.x| + |e.y - start.y|) 1 : ℤ) : ℚ))⟩ ∧
    (start ≠ e → (e.x - start.x = 0 ∨ e.y - start.y = 0) →
      (line_color s start e c1 c2).content e.y e.x = ⟨true, c2⟩) := by
  obtain ⟨⟨hendx, hendy, hendstep⟩, hnot, hstart⟩ := bresIter_reach start e
  have hline : line_color s start e c1 c2 =
      lineWriteSeq c1 c2 (|e.x - start.x|) (-(|e.y - start.y|))
        (if start.x < e.x then 1 else -1) (if start.y < e.y then 1 else -1)
        ((max (|e.x - start.x| + |e.y - start.y|) 1 : ℤ) : ℚ)
        ⟨start.x, start.y, |e.x - start.x| + -(|e.y - start.y|), 0⟩ s
        ((max |e.x - start.x| |e.y - start.y|).toNat + 1) := by
    unfold line_color
    simp only
    rw [neg_neg, abs_abs, abs_abs]
    rw [lineColorGo_eq_writeSeq e c1 c2 (|e.x - start.x|) (-(|e.y - start.y|))
      (if start.x < e.x then 1 else -1) (if start.y < e.y then 1 else -1)
      ((max (|e.x - start.x| + |e.y - start.y|) 1 : ℤ) : ℚ)
      (max |e.x - start.x| |e.y - start.y|).toNat
      ⟨start.x, start.y, |e.x - start.x| + -(|e.y - start.y|), 0⟩ s
      (fun m hm => hnot m (by omega)) hendx hendy _ (by omega)]
    rfl
  have hwseq1 : (lineWriteSeq c1 c2 (|e.x - start.x|) (-(|e.y - start.y|))
      (if start.x < e.x then 1 else -1) (if start.y < e.y then 1 else -1)
      ((max (|e.x - start.x| + |e.y - start.y|) 1 : ℤ) : ℚ)
      ⟨start.x, start.y, |e.x - start.x| + -(|e.y - start.y|), 0⟩ s
      ((max |e.x - start.x| |e.y - start.y|).toNat + 1)).content start.y start.x =
      (⟨true, c1⟩ : ColorCell) := by
    rw [lineWriteSeq_untouched c1 c2 (|e.x - start.x|) (-(|e.y - start.y|))
      (if start.x < e.x then 1 else -1) (if start.y < e.y then 1 else -1)
      ((max (|e.x - start.x| + |e.y - start.y|) 1 : ℤ) : ℚ)
      ⟨start.x, start.y, |e.x - start.x| + -(|e.y - start.y|), 0⟩ s
      start.x start.y 1 ((max |e.x - start.x| |e.y - start.y|).toNat + 1) (by omega)
      (fun k hk1 hk2 => hstart k hk1 (by omega))]
    rw [lineWriteSeq_one]
    rw [write_color_content_self s true ⟨start.x, start.y⟩ _ hs]
    rw [blendRgb_zero c1 c2 hc1.1 hc1.2.1 hc1.2.2 _ (by norm_num)]
  have hwseqe : (lineWriteSeq c1 c2 (|e.x - start.x|) (-(|e.y - start.y|))
      (if start.x < e.x then 1 else -1) (if start.y < e.y then 1 else -1)
      ((max (|e.x - start.x| + |e.y - start.y|) 1 : ℤ) : ℚ)
      ⟨start.x, start.y, |e.x - start.x| + -(|e.y - start.y|), 0⟩ s
      ((max |e.x - start.x| |e.y - start.y|).toNat + 1)).content e.y e.x =
      (⟨true, blendRgb c1 c2
        ((((max |e.x - start.x| |e.y - start.y|).toNat : ℕ) : ℚ) /
          ((max (|e.x - start.x| + |e.y - start.y|) 1 : ℤ) : ℚ))⟩ : ColorCell) := by
    rw [lineWriteSeq_succ]
    rw [show ((bresAdvance (|e.x - start.x|) (-(|e.y - start.y|))
        (if start.x < e.x then 1 else -1)
        (if start.y < e.y then 1 else -1))^[(max |e.x - start.x| |e.y - start.y|).toNat]
        ⟨start.x, start.y, |e.x - start.x| + -(|e.y - start.y|), 0⟩) =
        bresIter start e (max |e.x - start.x| |e.y - start.y|).toNat from rfl]
    rw [hendx, hendy, hendstep]
    have hinb : inScreenBounds (lineWriteSeq c1 c2 (|e.x - start.x|) (-(|e.y - start.y|))
        (if start.x < e.x then 1 else -1) (if start.y < e.y then 1 else -1)
        ((max (|e.x - start.x| + |e.y - start.y|) 1 : ℤ) : ℚ)
        ⟨start.x, start.y, |e.x - start.x| + -(|e.y - start.y|), 0⟩ s
        ((max |e.x - start.x| |e.y - start.y|).toNat)) ⟨e.x, e.y⟩ := by
      unfold inScreenBounds
      rw [lineWriteSeq_width, lineWriteSeq_height]
      exact he
    rw [write_color_content_self _ true ⟨e.x, e.y⟩ _ hinb]
  refine ⟨by rw [hline]; exact hwseq1, by rw [hline]; exact hwseqe, ?_⟩
  intro hne hax
  rw [hline, hwseqe]
  have hab : ¬(|e.x - start.x| = 0 ∧ |e.y - start.y| = 0) := by
    intro hcontra
    apply hne
    have hx := abs_eq_zero.mp hcontra.1
    have hy := abs_eq_zero.mp hcontra.2
    have hx2 : start.x = e.x := by omega
    have hy2 : start.y = e.y := by omega
    cases start
    cases e
    simp_all [Point2.mk.injEq]
  have ht1 : ((((max |e.x - start.x| |e.y - start.y|).toNat : ℕ) : ℚ) /
      ((max (|e.x - start.x| + |e.y - start.y|) 1 : ℤ) : ℚ)) = 1 := by
    have h0a : (0 : ℤ) ≤ |e.x - start.x| := abs_nonneg _
    have h0b : (0 : ℤ) ≤ |e.y - start.y| := abs_nonneg _
    have hmaxab : max |e.x - start.x| |e.y - start.y| =
        max (|e.x - start.x| + |e.y - start.y|) 1 := by
      rcases hax with h | h
      · have ha0 : |e.x - start.x| = 0 := by rw [h]; exact abs_zero
        have hb1 : 1 ≤ |e.y - start.y| := by
          rcases eq_or_lt_of_le h0b with hz | hz
          · exact absurd ⟨ha0, hz.symm⟩ hab
          · omega
        rw [ha0]
        omega
      · have hb0 : |e.y - start.y| = 0 := by rw [h]; exact abs_zero
        have ha1 : 1 ≤ |e.x - start.x| := by
          rcases eq_or_lt_of_le h0a with hz | hz
          · exact absurd ⟨hz.symm, hb0⟩ hab
          · omega
        rw [hb0]
        omega
    rw [hmaxab]
    have hpos : (0 : ℤ) < max (|e.x - start.x| + |e.y - start.y|) 1 := by omega
    have hcast : (((max (|e.x - start.x| + |e.y - start.y|) 1).toNat : ℕ) : ℚ) =
        ((max (|e.x - start.x| + |e.y - start.y|) 1 : ℤ) : ℚ) := by
      have h2 : (((max (|e.x - start.x| + |e.y - start.y|) 1).toNat : ℕ) : ℤ) =
          max (|e.x - start.x| + |e.y - start.y|) 1 := by omega
      exact_mod_cast congrArg (fun z : ℤ => (z : ℚ)) h2
    rw [hcast]
    apply div_self
    intro hzero
    rw [show ((0:ℚ)) = ((0 : ℤ) : ℚ) by norm_num] at hzero
    have := Int.cast_injective hzero
    omega
  rw [ht1, blendRgb_one c1 c2 hc2.1 hc2.2.1 hc2.2.2 1 rfl]

/-- Witness for C2 at a concrete screen and segment. -/
theorem c2_line_color_endpoints_witness :
    (line_color ⟨4, 4, fun _ _ => ⟨false, ⟨255, 255, 255⟩⟩⟩ ⟨0, 0⟩ ⟨2, 0⟩
      ⟨10, 20, 30⟩ ⟨200, 100, 50⟩).content 0 0 = ⟨true, ⟨10, 20, 30⟩⟩ :=
  (c2_line_color_endpoints ⟨4, 4, fun _ _ => ⟨false, ⟨255, 255, 255⟩⟩⟩ ⟨0, 0⟩ ⟨2, 0⟩
    ⟨10, 20, 30⟩ ⟨200, 100, 50⟩ (by norm_num) (by norm_num)
    (by norm_num [inScreenBounds]) (by norm_num [inScreenBounds])).1

/-- Counterexample to C2 as stated: on the diagonal segment `(0,0) → (1,1)`
the loop takes one step while the interpolation divisor is 2, so the end
sample is written with the half-way blend (red channel 100), not with
`end_color` (red channel 200). -/
theorem c2_counterexample :
    (line_color ⟨4, 4, fun _ _ => ⟨false, ⟨255, 255, 255⟩⟩⟩ ⟨0, 0⟩ ⟨1, 1⟩
      ⟨0, 0, 0⟩ ⟨200, 0, 0⟩).content 1 1 ≠ ⟨true, ⟨200, 0, 0⟩⟩ := by
  have hval : (line_color ⟨4, 4, fun _ _ => ⟨false, ⟨255, 255, 255⟩⟩⟩ ⟨0, 0⟩ ⟨1, 1⟩
      ⟨0, 0, 0⟩ ⟨200, 0, 0⟩).content 1 1 =
      ⟨true, blendRgb ⟨0, 0, 0⟩ ⟨200, 0, 0⟩ (((1 : ℕ) : ℚ) / ((2 : ℤ) : ℚ))⟩ := rfl
  rw [hval]
  intro hcon
  have hr := congrArg (fun c : ColorCell => c.color.r) hcon
  simp only [blendRgb, rustCastU8] at hr
  norm_num at hr
  omega

/-- Witness for C3: the block-glyph injectivity applied at a concrete
pattern. -/
theorem c3_glyph_packing_witness : blockAllOn = blockAllOn :=
  c3_glyph_packing.2.2.1 (rfl : blockToChar blockAllOn = blockToChar blockAllOn)

/-- Witness for C6 at a concrete camera and model. -/
theorem c6_viewport_restores_pose_witness :
    (plot_model_in_viewport
      ⟨⟨0, 0, 0⟩, 7, 8, 9, 1, 1, ⟨4, 4, fun _ _ => ⟨false, ⟨255, 255, 255⟩⟩⟩⟩
      ⟨0, 1, 0, 1, 0, 1⟩
      ⟨[], [], [⟨⟨0, 0, 5⟩, ⟨1, 0, 5⟩, ⟨0, 0, 0⟩, ⟨9, 9, 9⟩, 0, 1⟩], ⟨0, 0, 0⟩⟩
      ⟨1, 2, 3⟩ 4 5 0 4 4).yaw = 7 :=
  (c6_viewport_restores_pose
    ⟨⟨0, 0, 0⟩, 7, 8, 9, 1, 1, ⟨4, 4, fun _ _ => ⟨false, ⟨255, 255, 255⟩⟩⟩⟩
    ⟨0, 1, 0, 1, 0, 1⟩
    ⟨[], [], [⟨⟨0, 0, 5⟩, ⟨1, 0, 5⟩, ⟨0, 0, 0⟩, ⟨9, 9, 9⟩, 0, 1⟩], ⟨0, 0, 0⟩⟩
    ⟨1, 2, 3⟩ 4 5 0 4 4).2.1

/-- Witness for C8 at a concrete screen and segment. -/
theorem c8_clipped_full_region_eq_line_color_witness :
    line_color_clipped ⟨4, 4, fun _ _ => ⟨false, ⟨255, 255, 255⟩⟩⟩ ⟨0, 0⟩ ⟨2, 1⟩
        ⟨1, 2, 3⟩ ⟨4, 5, 6⟩ 0 ((4 : ℕ) : ℤ) 0 ((4 : ℕ) : ℤ) =
      line_color ⟨4, 4, fun _ _ => ⟨false, ⟨255, 255, 255⟩⟩⟩ ⟨0, 0⟩ ⟨2, 1⟩
        ⟨1, 2, 3⟩ ⟨4, 5, 6⟩ :=
  c8_clipped_full_region_eq_line_color ⟨4, 4, fun _ _ => ⟨false, ⟨255, 255, 255⟩⟩⟩
    ⟨0, 0⟩ ⟨2, 1⟩ ⟨1, 2, 3⟩ ⟨4, 5, 6⟩

end Pepterm
